import Mathlib

/-!
A verification development for the stream instantiation engine of
`pddlstream/algorithms/instantiation.py`.

The Python source is shallowly embedded: each Python function becomes a Lean
function of the same name, mutation of the `Instantiator` object becomes
explicit state passing on `EState`, Python exceptions (assertion failures in
`safe_zip`, `KeyError` on a missing mapping key) become `none` results that
propagate, and Python sets/deques become Lean lists (sets are lists extended
only when the element is absent, so membership coincides with Python set
membership).

Helper functions of the repository that are not part of the given source tree
(`pddlstream.utils.safe_zip`, `pddlstream.language.*`) are modelled from the
specification; each such definition carries a doc comment saying so.
-/

/-- An opaque planning-domain constant.  Modelled from the spec (§3 "Object"):
an opaque hashable value compared by value; the engine never inspects it. -/
structure Obj where
  id : Nat
deriving DecidableEq

/-- One argument of a declared domain fact: either a parameter symbol or a
literal `Obj` constant.  Modelled from the spec (§3 "Stream Declaration"):
"each argument either a parameter symbol or a literal Object constant". -/
inductive Arg
  | param (v : String)
  | const (o : Obj)
deriving DecidableEq

/-- A declared (domain-side) fact: predicate symbol plus arguments.  Its head,
`head_from_fact(fact)`, carries exactly the same data (`get_prefix` is the
predicate field, `get_args` the argument list), so a single structure models
both the fact and its head. -/
structure DFact where
  pred : String
  args : List Arg
deriving DecidableEq

/-- The head of a fully ground atom: predicate symbol (`head.function`) plus
a tuple of objects (`head.args`). -/
structure GAtom where
  pred : String
  args : List Obj
deriving DecidableEq

/-- An input to `add_atom`.  Modelled from the spec (§4.5, §7): the argument is
either a fully ground atom (`is_atom` returns true) or some other evaluation —
e.g. not fully ground — for which `is_atom` returns false. -/
inductive Input
  | atom (a : GAtom)
  | nonAtom
deriving DecidableEq

/-- A stream declaration.  `sid` models the Python object identity of the
declaration (distinct declaration objects have distinct `sid`).  Modelled from
the spec (§3, §6): a name, ordered input-parameter symbols, and an ordered
domain of precondition facts. -/
structure Strm where
  sid : Nat
  inputs : List String
  domain : List DFact
deriving DecidableEq

/-- A stream instance identity: `(stream declaration, input objects)`. -/
abbrev Inst := Nat × List Obj

/-- Modelled from the spec (§6): `get_instance(input_objects)` returns a stream
instance whose identity is determined by the pair (declaration, input tuple). -/
def Strm.get_instance (st : Strm) (objs : List Obj) : Inst := (st.sid, objs)

/-- Modelled from the spec: `pddlstream.utils.safe_zip` pairs two equal-length
sequences; per §4.1 an unequal length is "a contract violation, not a reported
error", i.e. an assertion failure, modelled as `none`. -/
def safe_zip (xs : List α) (ys : List β) : Option (List (α × β)) :=
  if xs.length = ys.length then some (xs.zip ys) else none

/-- The mapping built by `get_mapping`: a Python dict whose keys are the raw
domain-side arguments (parameter symbols or literal constants) and whose values
are candidate objects.  Modelled as an association list. -/
abbrev Mapping := List (Arg × Obj)

/-- `mapping.get(k)` on the association list. -/
def lookupM : Mapping → Arg → Option Obj
  | [], _ => none
  | (k, v) :: rest, a => if k = a then some v else lookupM rest a

/-- `mapping[k] = o` on the association list. -/
def updateM : Mapping → Arg → Obj → Mapping
  | [], a, o => [(a, o)]
  | (k, v) :: rest, a, o => if k = a then (k, o) :: rest else (k, v) :: updateM rest a o

/-- Result of `get_mapping`: an assertion failure (`raised`), a unification
failure (Python `None`), or a successful mapping. -/
inductive MRes
  | raised
  | failed
  | ok (m : Mapping)
deriving DecidableEq

/-- The inner loop of `get_mapping` over one fact pair's zipped arguments:
`if mapping.get(arg1, arg2) == arg2: mapping[arg1] = arg2 else: return None`. -/
def bindFactArgs : Mapping → List (Arg × Obj) → Option Mapping
  | m, [] => some m
  | m, (a1, a2) :: rest =>
    if (lookupM m a1).getD a2 = a2 then bindFactArgs (updateM m a1 a2) rest
    else none

/-- The outer loop of `get_mapping` over the zipped fact pairs, carrying the
accumulated mapping.  `assert get_prefix(a1) == get_prefix(a2)` and the inner
`safe_zip` assertion surface as `MRes.raised`. -/
def get_mapping_aux : Mapping → List (DFact × GAtom) → MRes
  | m, [] => .ok m
  | m, (a1, a2) :: rest =>
    if a1.pred = a2.pred then
      match safe_zip a1.args a2.args with
      | none => .raised
      | some pairs =>
        match bindFactArgs m pairs with
        | none => .failed
        | some m2 => get_mapping_aux m2 rest
    else .raised

/-- `get_mapping(atoms1, atoms2)` from the source. -/
def get_mapping (atoms1 : List DFact) (atoms2 : List GAtom) : MRes :=
  match safe_zip atoms1 atoms2 with
  | none => .raised
  | some pairs => get_mapping_aux [] pairs

/-- The mutable state of one `Instantiator`.  `stream_instances` is a Python
set (modelled as a list extended only with absent elements), `stream_queue` a
deque appended at the right, `atoms` a set of known heads, and
`atoms_from_domain` the defaultdict from `(stream index, domain slot)` to the
list of matching heads (a missing key reads as `[]`). -/
structure EState where
  streams : List Strm
  stream_instances : List Inst
  stream_queue : List Inst
  atoms : List GAtom
  atoms_from_domain : Nat × Nat → List GAtom

/-- `Instantiator._add_instance`. -/
def _add_instance (s : EState) (st : Strm) (input_objects : List Obj) :
    EState × Bool :=
  let stream_instance := st.get_instance input_objects
  if stream_instance ∈ s.stream_instances then (s, false)
  else ({ s with stream_instances := s.stream_instances ++ [stream_instance],
                 stream_queue := s.stream_queue ++ [stream_instance] }, true)

/-- `itertools.product(*values)`: all tuples taking one element per list, the
first coordinate varying slowest. -/
def listProd : List (List α) → List (List α)
  | [] => [[]]
  | l :: rest => l.flatMap fun x => (listProd rest).map (x :: ·)

/-- `tuple(mapping[p] for p in stream.inputs)`; a missing key is a Python
`KeyError`, modelled as `none`. -/
def lookupInputs (m : Mapping) : List String → Option (List Obj)
  | [] => some []
  | p :: rest =>
    match lookupM m (.param p), lookupInputs m rest with
    | some o, some os => some (o :: os)
    | _, _ => none

/-- The loop of `_add_combinations` over the Cartesian product: unify each
combination against the stream's domain heads and request instance creation on
success.  A `raised` unification or a `KeyError` propagates as `none`. -/
def addCombos (st : Strm) : EState → List (List GAtom) → EState × Option Unit
  | s, [] => (s, some ())
  | s, combo :: rest =>
    match get_mapping st.domain combo with
    | .raised => (s, none)
    | .failed => addCombos st s rest
    | .ok mapping =>
      match lookupInputs mapping st.inputs with
      | none => (s, none)
      | some input_objects => addCombos st (_add_instance s st input_objects).1 rest

/-- `Instantiator._add_combinations` (the domain head list of the source is the
stream's domain itself, since facts and their heads carry the same data). -/
def _add_combinations (s : EState) (st : Strm) (values : List (List GAtom)) :
    EState × Option Unit :=
  addCombos st s (listProd values)

/-- The per-slot constant filter of `add_atom`:
`any(isinstance(b, Object) and (a != b) for a, b in safe_zip(head.args, get_args(domain_fact)))`. -/
def constMismatch (pairs : List (Obj × Arg)) : Bool :=
  pairs.any fun p =>
    match p.2 with
    | .const c => decide (p.1 ≠ c)
    | .param _ => false

/-- `self.atoms_from_domain[(i, j)].append(head)`: the state after appending
the new head to the slot `(i, j)` index list. -/
def slotState (i : Nat) (head : GAtom) (s : EState) (j : Nat) : EState :=
  { s with atoms_from_domain := fun k =>
      if k = (i, j) then s.atoms_from_domain (i, j) ++ [head]
      else s.atoms_from_domain k }

/-- `values = [self.atoms_from_domain[(i, k)] if j != k else [head] for k in
range(len(stream.domain))]`, read on the state after the append. -/
def slotValues (st : Strm) (i : Nat) (head : GAtom) (s1 : EState) (j : Nat) :
    List (List GAtom) :=
  (List.range st.domain.length).map fun k =>
    if j ≠ k then s1.atoms_from_domain (i, k) else [head]

/-- The inner loop of `add_atom` over the domain facts of stream `st` (sitting
at position `i` of `self.streams`), with `j` the index of the first fact of
`dfs` within `st.domain`.  On a predicate match the arity is checked by
`safe_zip` (assertion failure = `none`), the constant filter may skip the slot,
and otherwise the head is appended to the slot's index list and
`_add_combinations` runs on the current candidate lists. -/
def procSlots (st : Strm) (i : Nat) (head : GAtom) :
    EState → List DFact → Nat → EState × Option Unit
  | s, [], _ => (s, some ())
  | s, df :: rest, j =>
    if head.pred = df.pred then
      match safe_zip head.args df.args with
      | none => (s, none)
      | some pairs =>
        if constMismatch pairs then procSlots st i head s rest (j+1)
        else
          match _add_combinations (slotState i head s j) st
              (slotValues st i head (slotState i head s j) j) with
          | (s2, some _) => procSlots st i head s2 rest (j+1)
          | (s2, none) => (s2, none)
    else procSlots st i head s rest (j+1)

/-- The outer loop of `add_atom`: `for i, stream in enumerate(self.streams)`. -/
def procStreams (head : GAtom) : EState → List Strm → Nat → EState × Option Unit
  | s, [], _ => (s, some ())
  | s, st :: rest, i =>
    match procSlots st i head s st.domain 0 with
    | (s2, some _) => procStreams head s2 rest (i+1)
    | (s2, none) => (s2, none)

/-- `Instantiator.add_atom`.  The returned `Option Bool` is `some b` for a
normal return of `b` and `none` when an assertion failure or `KeyError`
escapes; the returned state is the state at that point (Python mutates the
object in place, so partial mutations survive the exception). -/
def add_atom (s : EState) (inp : Input) : EState × Option Bool :=
  match inp with
  | .nonAtom => (s, some false)
  | .atom head =>
    if head ∈ s.atoms then (s, some false)
    else
      let s1 : EState := { s with atoms := s.atoms ++ [head] }
      match procStreams head s1 s1.streams 0 with
      | (s2, some _) => (s2, some true)
      | (s2, none) => (s2, none)

/-- The freshly constructed, still-empty engine state. -/
def emptyState (streams : List Strm) : EState :=
  { streams := streams, stream_instances := [], stream_queue := [],
    atoms := [], atoms_from_domain := fun _ => [] }

/-- The first phase of `Instantiator.__init__`: instantiate every stream whose
`inputs` tuple is empty, starting from the empty state. -/
def initZero (streams : List Strm) : EState :=
  streams.foldl
    (fun s st => if st.inputs = [] then (_add_instance s st []).1 else s)
    (emptyState streams)

/-- The second phase of `__init__` (and any later driving loop): submit a list
of evaluations with one `add_atom` call each; an escaping exception stops the
loop and propagates as `none`. -/
def runAtoms : EState → List Input → EState × Option Unit
  | s, [] => (s, some ())
  | s, a :: rest =>
    match add_atom s a with
    | (s2, some _) => runAtoms s2 rest
    | (s2, none) => (s2, none)

/-- `Instantiator.__init__(evaluations, streams)`. -/
def Instantiator.init (evaluations : List Input) (streams : List Strm) :
    EState × Option Unit :=
  runAtoms (initZero streams) evaluations

/-! ### Declarative characterisations (used to state the claims) -/

/-- Slot compatibility of a ground head with a domain fact: same predicate,
same arity, and agreement at every literal-constant position.  This is the
acceptance condition of `add_atom`'s per-slot guards. -/
def compatB (df : DFact) (h : GAtom) : Bool :=
  decide (h.pred = df.pred) && decide (h.args.length = df.args.length) &&
    !constMismatch (h.args.zip df.args)

/-- The instance a combination yields for stream `st`: unify the combination
against the domain heads and read the declared inputs off the mapping. -/
def instFrom (st : Strm) (combo : List GAtom) : Option Inst :=
  match get_mapping st.domain combo with
  | .ok m => (lookupInputs m st.inputs).map fun objs => (st.sid, objs)
  | _ => none

/-- The instances created unconditionally at construction: one per declared
stream with an empty `inputs` tuple. -/
def ZeroInst (streams : List Strm) (inst : Inst) : Prop :=
  ∃ st, st ∈ streams ∧ st.inputs = [] ∧ inst = (st.sid, [])

/-- `inst` is derivable from the fact set `A`: some declared stream has a
combination of `A`-atoms, one slot-compatible atom per domain slot, that
unifies and reads off `inst`'s input tuple. -/
def Derivable (streams : List Strm) (A : List GAtom) (inst : Inst) : Prop :=
  ∃ st combo, st ∈ streams ∧ combo.length = st.domain.length ∧
    (∀ (k : Nat) x df, combo[k]? = some x → st.domain[k]? = some df →
      x ∈ A ∧ compatB df x = true) ∧
    instFrom st combo = some inst

/-- Well-formedness of one ground atom against the declarations: wherever its
predicate matches a declared domain fact, the arity matches too (otherwise
`add_atom`'s per-slot `safe_zip` assertion fires). -/
def WFatom (streams : List Strm) (a : GAtom) : Prop :=
  ∀ st ∈ streams, ∀ df ∈ st.domain, a.pred = df.pred →
    a.args.length = df.args.length

/-- The spec's grounding obligation (§3): every declared input parameter
appears in at least one domain fact, so that a successful unification always
binds it. -/
def WFstreams (streams : List Strm) : Prop :=
  ∀ st ∈ streams, ∀ p ∈ st.inputs, ∃ df ∈ st.domain, Arg.param p ∈ df.args

/-- A conflict that makes `bindFactArgs m pairs` fail: some pair's key is
already bound in `m` to a different object, or two pairs share a key but carry
different objects. -/
def HasConflict (m : Mapping) (pairs : List (Arg × Obj)) : Prop :=
  (∃ a o v, (a, o) ∈ pairs ∧ lookupM m a = some v ∧ v ≠ o) ∨
  (∃ a o o', (a, o) ∈ pairs ∧ (a, o') ∈ pairs ∧ o ≠ o')

/-- Well-formedness of a state's domain index: every indexed head matches its
slot's predicate and arity.  This holds of every state the engine builds and is
what keeps the per-combination `get_mapping` calls from raising. -/
def WFidx (s : EState) : Prop :=
  ∀ (i j : Nat) st df, s.streams[i]? = some st → st.domain[j]? = some df →
    ∀ x ∈ s.atoms_from_domain (i, j), x.pred = df.pred ∧
      x.args.length = df.args.length

/-- The ready queue and the instance set hold exactly the same instances. -/
def QI (s : EState) : Prop :=
  ∀ x, x ∈ s.stream_queue ↔ x ∈ s.stream_instances

/-- Relation between a state and any later state produced by the inner loops of
`add_atom`: declarations and known heads are untouched, the instance set only
grows, and the queue is only appended with instances that were absent from the
instance set. -/
structure Steps (s s2 : EState) : Prop where
  streams_eq : s2.streams = s.streams
  atoms_eq : s2.atoms = s.atoms
  inst_mono : ∀ x ∈ s.stream_instances, x ∈ s2.stream_instances
  queue_ext : ∃ t, s2.stream_queue = s.stream_queue ++ t ∧
    ∀ x ∈ t, x ∉ s.stream_instances

/-- Constant-constraint soundness of the domain index: wherever a declared
domain fact holds a literal constant, every head indexed under that slot agrees
with it at that argument position. -/
def ConstOK (s : EState) : Prop :=
  ∀ (i j p : Nat) st df c, s.streams[i]? = some st → st.domain[j]? = some df →
    df.args[p]? = some (Arg.const c) →
    ∀ x ∈ s.atoms_from_domain (i, j), x.args[p]? = some c

/-- Index soundness: every indexed head is a known head that is slot-compatible
with its slot. -/
def IdxSound (s : EState) : Prop :=
  ∀ (i j : Nat) st df, s.streams[i]? = some st → st.domain[j]? = some df →
    ∀ x ∈ s.atoms_from_domain (i, j), x ∈ s.atoms ∧ compatB df x = true

/-- Instance soundness: every recorded instance is a zero-input instance or is
derivable from the known heads. -/
def InstSound (s : EState) : Prop :=
  ∀ inst ∈ s.stream_instances, ZeroInst s.streams inst ∨
    Derivable s.streams s.atoms inst

/-- The full engine invariant, tying a state to the list `A` of ground heads
accepted so far: the known-head set is exactly `A`, each index slot holds
exactly the slot-compatible heads of `A`, the instance set is exactly the
zero-input instances plus the instances derivable from `A`, and the queue
mirrors the instance set. -/
structure EngineInv (streams : List Strm) (s : EState) (A : List GAtom) : Prop where
  streams_eq : s.streams = streams
  atoms_char : ∀ h, h ∈ s.atoms ↔ h ∈ A
  idx_char : ∀ (i j : Nat) st df, streams[i]? = some st →
    st.domain[j]? = some df →
    ∀ x, x ∈ s.atoms_from_domain (i, j) ↔ (x ∈ A ∧ compatB df x = true)
  inst_char : ∀ inst, inst ∈ s.stream_instances ↔
    (ZeroInst streams inst ∨ Derivable streams A inst)
  queue_char : ∀ inst, inst ∈ s.stream_queue ↔ inst ∈ s.stream_instances

/-- The number of occurrences of an instance in a queue (multiplicity in the
FIFO list). -/
def countInst (q : List Inst) (x : Inst) : Nat :=
  (q.filter (fun y => y = x)).length

/-! ### Lemmas about the unification mapping -/

theorem lookupM_updateM (m : Mapping) (a : Arg) (o : Obj) (k : Arg) :
    lookupM (updateM m a o) k = if k = a then some o else lookupM m k := by
  induction m with
  | nil =>
    by_cases hk : k = a
    · subst hk; simp [updateM, lookupM]
    · simp [updateM, lookupM, hk, Ne.symm hk]
  | cons p rest ih =>
    obtain ⟨k1, v⟩ := p
    by_cases h1 : k1 = a
    · subst h1
      by_cases h2 : k = k1
      · subst h2; simp [updateM, lookupM]
      · simp [updateM, lookupM, h2, Ne.symm h2]
    · by_cases h2 : k1 = k
      · subst h2
        simp [updateM, lookupM, h1]
      · simp [updateM, lookupM, h1, h2, ih]

theorem bindFactArgs_eq_none_iff (pairs : List (Arg × Obj)) :
    ∀ m, bindFactArgs m pairs = none ↔ HasConflict m pairs := by
  induction pairs with
  | nil =>
    intro m
    simp [bindFactArgs, HasConflict]
  | cons p rest ih =>
    obtain ⟨a, o⟩ := p
    intro m
    by_cases hg : (lookupM m a).getD o = o
    · rw [bindFactArgs, if_pos hg, ih]
      constructor
      · rintro (⟨a1, o1, v, hmem, hlk, hne⟩ | ⟨a1, o1, o2, hm1, hm2, hne⟩)
        · by_cases ha : a1 = a
          · rw [lookupM_updateM, if_pos ha] at hlk
            injection hlk with h2
            rw [ha] at hmem
            exact Or.inr ⟨a, o, o1, List.mem_cons_self _ _,
              List.mem_cons_of_mem _ hmem, h2.symm ▸ hne⟩
          · rw [lookupM_updateM, if_neg ha] at hlk
            exact Or.inl ⟨a1, o1, v, List.mem_cons_of_mem _ hmem, hlk, hne⟩
        · exact Or.inr ⟨a1, o1, o2, List.mem_cons_of_mem _ hm1,
            List.mem_cons_of_mem _ hm2, hne⟩
      · rintro (⟨a1, o1, v, hmem, hlk, hne⟩ | ⟨a1, o1, o2, hm1, hm2, hne⟩)
        · rcases List.mem_cons.1 hmem with heq | hmem2
          · injection heq with h1 h2
            rw [h1] at hlk
            rw [hlk] at hg
            simp only [Option.getD_some] at hg
            exact absurd (hg.trans h2.symm) hne
          · by_cases ha : a1 = a
            · rw [ha] at hlk
              rw [hlk] at hg
              simp only [Option.getD_some] at hg
              refine Or.inl ⟨a1, o1, o, hmem2, ?_, hg ▸ hne⟩
              rw [lookupM_updateM, if_pos ha]
            · refine Or.inl ⟨a1, o1, v, hmem2, ?_, hne⟩
              rw [lookupM_updateM, if_neg ha]
              exact hlk
        · rcases List.mem_cons.1 hm1 with he1 | hm1b <;>
            rcases List.mem_cons.1 hm2 with he2 | hm2b
          · injection he1 with h1 h2
            injection he2 with h3 h4
            exact absurd (h2.trans h4.symm) hne
          · injection he1 with h1 h2
            refine Or.inl ⟨a1, o2, o, hm2b, ?_, h2 ▸ hne⟩
            rw [lookupM_updateM, if_pos h1]
          · injection he2 with h3 h4
            refine Or.inl ⟨a1, o1, o, hm1b, ?_, Ne.symm (h4 ▸ hne)⟩
            rw [lookupM_updateM, if_pos h3]
          · exact Or.inr ⟨a1, o1, o2, hm1b, hm2b, hne⟩
    · rw [bindFactArgs, if_neg hg]
      refine iff_of_true rfl ?_
      rcases hml : lookupM m a with _ | v
      · rw [hml] at hg
        simp at hg
      · rw [hml] at hg
        simp only [Option.getD_some] at hg
        exact Or.inl ⟨a, o, v, List.mem_cons_self _ _, hml, hg⟩

theorem bindFactArgs_lookup (pairs : List (Arg × Obj)) :
    ∀ m m2, bindFactArgs m pairs = some m2 →
      (∀ k v, lookupM m k = some v → lookupM m2 k = some v) ∧
      (∀ a o, (a, o) ∈ pairs → lookupM m2 a = some o) := by
  induction pairs with
  | nil =>
    intro m m2 h
    obtain rfl : m = m2 := by simpa [bindFactArgs] using h
    exact ⟨fun _ _ hv => hv, by simp⟩
  | cons p rest ih =>
    obtain ⟨a, o⟩ := p
    intro m m2 h
    rw [bindFactArgs] at h
    by_cases hg : (lookupM m a).getD o = o
    · rw [if_pos hg] at h
      obtain ⟨pres, binds⟩ := ih (updateM m a o) m2 h
      have hhead : lookupM m2 a = some o := by
        refine pres a o ?_
        rw [lookupM_updateM, if_pos rfl]
      refine ⟨?_, ?_⟩
      · intro k v hkv
        by_cases hk : k = a
        · rw [hk] at hkv ⊢
          rw [hkv] at hg
          simp only [Option.getD_some] at hg
          rw [hhead, hg]
        · refine pres k v ?_
          rw [lookupM_updateM, if_neg hk]
          exact hkv
      · intro a1 o1 hmem
        rcases List.mem_cons.1 hmem with heq | hmem2
        · injection heq with h1 h2
          rw [h1, h2]
          exact hhead
        · exact binds a1 o1 hmem2
    · rw [if_neg hg] at h
      exact absurd h (by simp)

theorem get_mapping_aux_ne_raised (l : List (DFact × GAtom)) :
    ∀ m, (∀ p ∈ l, (p.1 : DFact).pred = (p.2 : GAtom).pred ∧
        p.1.args.length = p.2.args.length) →
      get_mapping_aux m l ≠ .raised := by
  induction l with
  | nil => intro m _; simp [get_mapping_aux]
  | cons p rest ih =>
    obtain ⟨f, g⟩ := p
    intro m hl
    obtain ⟨hpred, hlen⟩ := hl (f, g) (List.mem_cons_self _ _)
    have hsz : safe_zip f.args g.args = some (f.args.zip g.args) := by
      rw [safe_zip, if_pos hlen]
    rw [get_mapping_aux, if_pos hpred, hsz]
    cases hbfa : bindFactArgs m (f.args.zip g.args) with
    | none => simp [hbfa]
    | some m2 =>
      simp only [hbfa]
      exact ih m2 (fun q hq => hl q (List.mem_cons_of_mem _ hq))

theorem get_mapping_aux_ok_shape (l : List (DFact × GAtom)) :
    ∀ m m2, get_mapping_aux m l = .ok m2 →
      ∀ p ∈ l, (p.1 : DFact).pred = (p.2 : GAtom).pred ∧
        p.1.args.length = p.2.args.length := by
  induction l with
  | nil => intro m m2 _ p hp; exact absurd hp (List.not_mem_nil p)
  | cons q rest ih =>
    obtain ⟨f, g⟩ := q
    intro m m2 h p hp
    by_cases hpred : f.pred = g.pred
    · rw [get_mapping_aux, if_pos hpred] at h
      by_cases hlen : f.args.length = g.args.length
      · have hsz : safe_zip f.args g.args = some (f.args.zip g.args) := by
          rw [safe_zip, if_pos hlen]
        rw [hsz] at h
        cases hbfa : bindFactArgs m (f.args.zip g.args) with
        | none => simp only [hbfa] at h; exact absurd h (by simp)
        | some m1 =>
          simp only [hbfa] at h
          rcases List.mem_cons.1 hp with heq | hp2
          · rw [heq]; exact ⟨hpred, hlen⟩
          · exact ih m1 m2 h p hp2
      · have hsz : safe_zip f.args g.args = none := by
          rw [safe_zip, if_neg hlen]
        rw [hsz] at h
        exact absurd h (by simp)
    · rw [get_mapping_aux, if_neg hpred] at h
      exact absurd h (by simp)

theorem get_mapping_aux_ok_lookup (l : List (DFact × GAtom)) :
    ∀ m m2, get_mapping_aux m l = .ok m2 →
      (∀ k v, lookupM m k = some v → lookupM m2 k = some v) ∧
      (∀ p ∈ l, ∀ (i : Nat) a o, (p.1 : DFact).args[i]? = some a →
        (p.2 : GAtom).args[i]? = some o → lookupM m2 a = some o) := by
  induction l with
  | nil =>
    intro m m2 h
    have hm : m = m2 := by
      rw [get_mapping_aux] at h
      injection h
    subst hm
    exact ⟨fun _ _ hv => hv, fun p hp => absurd hp (List.not_mem_nil p)⟩
  | cons q rest ih =>
    obtain ⟨f, g⟩ := q
    intro m m2 h
    by_cases hpred : f.pred = g.pred
    · rw [get_mapping_aux, if_pos hpred] at h
      by_cases hlen : f.args.length = g.args.length
      · have hsz : safe_zip f.args g.args = some (f.args.zip g.args) := by
          rw [safe_zip, if_pos hlen]
        rw [hsz] at h
        cases hbfa : bindFactArgs m (f.args.zip g.args) with
        | none => simp only [hbfa] at h; exact absurd h (by simp)
        | some m1 =>
          simp only [hbfa] at h
          obtain ⟨pres, binds⟩ := ih m1 m2 h
          obtain ⟨pres0, binds0⟩ := bindFactArgs_lookup _ _ _ hbfa
          refine ⟨fun k v hv => pres k v (pres0 k v hv), ?_⟩
          intro p hp i a o h1 h2
          rcases List.mem_cons.1 hp with heq | hp2
          · rw [heq] at h1 h2
            refine pres a o (binds0 a o ?_)
            exact List.getElem?_mem (List.getElem?_zip_eq_some.2 ⟨h1, h2⟩)
          · exact binds p hp2 i a o h1 h2
      · have hsz : safe_zip f.args g.args = none := by
          rw [safe_zip, if_neg hlen]
        rw [hsz] at h
        exact absurd h (by simp)
    · rw [get_mapping_aux, if_neg hpred] at h
      exact absurd h (by simp)

theorem get_mapping_ne_raised (atoms1 : List DFact) (atoms2 : List GAtom)
    (hlen : atoms1.length = atoms2.length)
    (hwf : ∀ (k : Nat) f g, atoms1[k]? = some f → atoms2[k]? = some g →
      f.pred = g.pred ∧ f.args.length = g.args.length) :
    get_mapping atoms1 atoms2 ≠ .raised := by
  have hsz : safe_zip atoms1 atoms2 = some (atoms1.zip atoms2) := by
    rw [safe_zip, if_pos hlen]
  rw [get_mapping, hsz]
  refine get_mapping_aux_ne_raised _ [] (fun p hp => ?_)
  obtain ⟨k, hk⟩ := List.mem_iff_getElem?.1 hp
  obtain ⟨h1, h2⟩ := List.getElem?_zip_eq_some.1 hk
  exact hwf k p.1 p.2 h1 h2

theorem get_mapping_ok_len (atoms1 : List DFact) (atoms2 : List GAtom) (m : Mapping)
    (h : get_mapping atoms1 atoms2 = .ok m) : atoms1.length = atoms2.length := by
  by_cases hlen : atoms1.length = atoms2.length
  · exact hlen
  · rw [get_mapping, safe_zip, if_neg hlen] at h
    exact absurd h (by simp)

theorem get_mapping_ok_shape (atoms1 : List DFact) (atoms2 : List GAtom) (m : Mapping)
    (h : get_mapping atoms1 atoms2 = .ok m) :
    ∀ (k : Nat) f g, atoms1[k]? = some f → atoms2[k]? = some g →
      f.pred = g.pred ∧ f.args.length = g.args.length := by
  have hlen := get_mapping_ok_len atoms1 atoms2 m h
  rw [get_mapping, safe_zip, if_pos hlen] at h
  intro k f g h1 h2
  exact get_mapping_aux_ok_shape _ _ _ h (f, g)
    (List.getElem?_mem (List.getElem?_zip_eq_some.2 ⟨h1, h2⟩))

theorem get_mapping_ok_lookup (atoms1 : List DFact) (atoms2 : List GAtom) (m : Mapping)
    (h : get_mapping atoms1 atoms2 = .ok m) :
    ∀ (k i : Nat) f g a o, atoms1[k]? = some f → atoms2[k]? = some g →
      f.args[i]? = some a → g.args[i]? = some o → lookupM m a = some o := by
  have hlen := get_mapping_ok_len atoms1 atoms2 m h
  rw [get_mapping, safe_zip, if_pos hlen] at h
  intro k i f g a o h1 h2 h3 h4
  exact (get_mapping_aux_ok_lookup _ _ _ h).2 (f, g)
    (List.getElem?_mem (List.getElem?_zip_eq_some.2 ⟨h1, h2⟩)) i a o h3 h4

/-- C4: (amended) in `get_mapping` over a single fact pair with matching
predicates and arities, a domain-side argument — literal constant or parameter
alike — is a binding key: the unification fails exactly when the same key is
paired with two different candidate objects, and otherwise every key binds the
candidate object at its position. -/
theorem claim_C4_amended (pr : String) (dargs : List Arg) (cargs : List Obj)
    (hlen : dargs.length = cargs.length) :
    get_mapping [⟨pr, dargs⟩] [⟨pr, cargs⟩] = .failed ↔
      ∃ (k l : Nat) (a : Arg) (o o' : Obj), dargs[k]? = some a ∧ cargs[k]? = some o ∧
        dargs[l]? = some a ∧ cargs[l]? = some o' ∧ o ≠ o' := by
  have hred : get_mapping [(⟨pr, dargs⟩ : DFact)] [(⟨pr, cargs⟩ : GAtom)] =
      get_mapping_aux [] [(⟨pr, dargs⟩, ⟨pr, cargs⟩)] := rfl
  have hsz2 : safe_zip dargs cargs = some (dargs.zip cargs) := by
    rw [safe_zip, if_pos hlen]
  rw [hred, get_mapping_aux, if_pos rfl, hsz2]
  cases hbfa : bindFactArgs [] (dargs.zip cargs) with
  | none =>
    simp only [hbfa]
    refine iff_of_true (by simp) ?_
    rcases (bindFactArgs_eq_none_iff _ _).1 hbfa with ⟨a, o, v, _, hlk, _⟩ |
      ⟨a, o, o', hm1, hm2, hne⟩
    · simp [lookupM] at hlk
    · obtain ⟨k, hk⟩ := List.mem_iff_getElem?.1 hm1
      obtain ⟨l, hl⟩ := List.mem_iff_getElem?.1 hm2
      obtain ⟨hk1, hk2⟩ := List.getElem?_zip_eq_some.1 hk
      obtain ⟨hl1, hl2⟩ := List.getElem?_zip_eq_some.1 hl
      exact ⟨k, l, a, o, o', hk1, hk2, hl1, hl2, hne⟩
  | some m2 =>
    simp only [hbfa, get_mapping_aux]
    refine iff_of_false (by simp) ?_
    rintro ⟨k, l, a, o, o', hk1, hk2, hl1, hl2, hne⟩
    obtain ⟨_, binds⟩ := bindFactArgs_lookup _ _ _ hbfa
    have h1 : lookupM m2 a = some o :=
      binds a o (List.getElem?_mem (List.getElem?_zip_eq_some.2 ⟨hk1, hk2⟩))
    have h2 : lookupM m2 a = some o' :=
      binds a o' (List.getElem?_mem (List.getElem?_zip_eq_some.2 ⟨hl1, hl2⟩))
    rw [h1] at h2
    injection h2 with h3
    exact hne h3

/-- C4: counterexample to the claim as stated — a domain-side literal constant
`⟨0⟩` against a different candidate object `⟨1⟩` does not make `get_mapping`
fail; it succeeds and records the binding `const ⟨0⟩ ↦ ⟨1⟩`. -/
theorem claim_C4_counterexample :
    get_mapping [⟨"P", [Arg.const ⟨0⟩]⟩] [⟨"P", [⟨1⟩]⟩] =
      .ok [(Arg.const ⟨0⟩, ⟨1⟩)] ∧
    get_mapping [⟨"P", [Arg.const ⟨0⟩]⟩] [⟨"P", [⟨1⟩]⟩] ≠ .failed ∧
    (Obj.mk 1 ≠ Obj.mk 0) := by
  refine ⟨?_, ?_, ?_⟩ <;> decide

/-- C4: witness instantiating the amended theorem at a concrete input. -/
theorem claim_C4_witness :
    get_mapping [⟨"P", [Arg.param "x", Arg.param "x"]⟩] [⟨"P", [⟨1⟩, ⟨2⟩]⟩]
        = .failed ↔
      ∃ (k l : Nat) (a : Arg) (o o' : Obj),
        [Arg.param "x", Arg.param "x"][k]? = some a ∧
        [(⟨1⟩ : Obj), ⟨2⟩][k]? = some o ∧
        [Arg.param "x", Arg.param "x"][l]? = some a ∧
        [(⟨1⟩ : Obj), ⟨2⟩][l]? = some o' ∧ o ≠ o' :=
  claim_C4_amended "P" [Arg.param "x", Arg.param "x"] [⟨1⟩, ⟨2⟩] (by decide)

/-- C9: in `get_mapping` taken in isolation, a domain-side literal constant is
handled exactly like a parameter: a differing candidate object is recorded as a
binding `const c ↦ o` instead of failing at that position, and unification of a
fact pair succeeds — with every binding recorded — whenever all positions
sharing a key (constant or parameter alike) carry the same candidate object. -/
theorem claim_C9_const_as_param :
    (∀ (pr : String) (c o : Obj),
        get_mapping [⟨pr, [Arg.const c]⟩] [⟨pr, [o]⟩] = .ok [(Arg.const c, o)]) ∧
    (∀ (pr : String) (dargs : List Arg) (cargs : List Obj),
        dargs.length = cargs.length →
        (∀ (k l : Nat) (a : Arg) (o o' : Obj), dargs[k]? = some a →
          cargs[k]? = some o → dargs[l]? = some a → cargs[l]? = some o' →
          o = o') →
        ∃ m, get_mapping [⟨pr, dargs⟩] [⟨pr, cargs⟩] = .ok m ∧
          ∀ (k : Nat) (a : Arg) (o : Obj), dargs[k]? = some a →
            cargs[k]? = some o → lookupM m a = some o) := by
  constructor
  · intro pr c o
    simp [get_mapping, get_mapping_aux, safe_zip, bindFactArgs, lookupM, updateM]
  · intro pr dargs cargs hlen hcons
    have hred : get_mapping [(⟨pr, dargs⟩ : DFact)] [(⟨pr, cargs⟩ : GAtom)] =
        get_mapping_aux [] [(⟨pr, dargs⟩, ⟨pr, cargs⟩)] := rfl
    have hsz2 : safe_zip dargs cargs = some (dargs.zip cargs) := by
      rw [safe_zip, if_pos hlen]
    rw [hred, get_mapping_aux, if_pos rfl, hsz2]
    cases hbfa : bindFactArgs [] (dargs.zip cargs) with
    | none =>
      exfalso
      rcases (bindFactArgs_eq_none_iff _ _).1 hbfa with ⟨a, o, v, _, hlk, _⟩ |
        ⟨a, o, o', hm1, hm2, hne⟩
      · simp [lookupM] at hlk
      · obtain ⟨k, hk⟩ := List.mem_iff_getElem?.1 hm1
        obtain ⟨l, hl⟩ := List.mem_iff_getElem?.1 hm2
        obtain ⟨hk1, hk2⟩ := List.getElem?_zip_eq_some.1 hk
        obtain ⟨hl1, hl2⟩ := List.getElem?_zip_eq_some.1 hl
        exact hne (hcons k l a o o' hk1 hk2 hl1 hl2)
    | some m2 =>
      refine ⟨m2, by simp [hbfa, get_mapping_aux], ?_⟩
      intro k a o h1 h2
      exact (bindFactArgs_lookup _ _ _ hbfa).2 a o
        (List.getElem?_mem (List.getElem?_zip_eq_some.2 ⟨h1, h2⟩))

/-- C9: witness instantiating the consistency part at a concrete fact pair with
a mismatching constant position, which still unifies. -/
theorem claim_C9_witness :
    ∃ m, get_mapping [⟨"Q", [Arg.const ⟨0⟩, Arg.param "x"]⟩]
        [⟨"Q", [⟨1⟩, ⟨2⟩]⟩] = .ok m ∧
      ∀ (k : Nat) (a : Arg) (o : Obj),
        [Arg.const ⟨0⟩, Arg.param "x"][k]? = some a →
        [(⟨1⟩ : Obj), ⟨2⟩][k]? = some o → lookupM m a = some o :=
  claim_C9_const_as_param.2 "Q" [Arg.const ⟨0⟩, Arg.param "x"] [⟨1⟩, ⟨2⟩]
    (by decide)
    (by
      intro k l a o o' h1 h2 h3 h4
      rcases k with _ | _ | k <;> rcases l with _ | _ | l <;> simp_all <;>
        subst h1 <;> simp_all)

/-- C8: (amended) over equal-length sequences with pairwise matching predicates
and pairwise equal argument counts, `get_mapping` never raises, is
all-or-nothing — a success binds every argument key (hence every parameter)
occurring anywhere in the domain facts — and two positions binding the same key
to different objects force the failure result rather than a partial mapping. -/
theorem claim_C8_amended (atoms1 : List DFact) (atoms2 : List GAtom)
    (hlen : atoms1.length = atoms2.length)
    (hwf : ∀ (k : Nat) f g, atoms1[k]? = some f → atoms2[k]? = some g →
      f.pred = g.pred ∧ f.args.length = g.args.length) :
    get_mapping atoms1 atoms2 ≠ .raised ∧
    (∀ m f a, get_mapping atoms1 atoms2 = .ok m → f ∈ atoms1 → a ∈ f.args →
      (lookupM m a).isSome = true) ∧
    (∀ (k l i j : Nat) f g f2 g2 a o o',
      atoms1[k]? = some f → atoms2[k]? = some g →
      atoms1[l]? = some f2 → atoms2[l]? = some g2 →
      f.args[i]? = some a → g.args[i]? = some o →
      f2.args[j]? = some a → g2.args[j]? = some o' → o ≠ o' →
      get_mapping atoms1 atoms2 = .failed) := by
  refine ⟨get_mapping_ne_raised atoms1 atoms2 hlen hwf, ?_, ?_⟩
  · intro m f a hok hf ha
    obtain ⟨k, hk⟩ := List.mem_iff_getElem?.1 hf
    obtain ⟨hklt, _⟩ := List.getElem?_eq_some.1 hk
    have hklt2 : k < atoms2.length := hlen ▸ hklt
    have hk2 : atoms2[k]? = some atoms2[k] := List.getElem?_eq_getElem hklt2
    obtain ⟨i, hi⟩ := List.mem_iff_getElem?.1 ha
    obtain ⟨hilt, _⟩ := List.getElem?_eq_some.1 hi
    have hargeq : f.args.length = (atoms2[k]).args.length :=
      (hwf k f atoms2[k] hk hk2).2
    have hilt2 : i < (atoms2[k]).args.length := hargeq ▸ hilt
    have hi2 : (atoms2[k]).args[i]? = some ((atoms2[k]).args[i]) :=
      List.getElem?_eq_getElem hilt2
    have hl := get_mapping_ok_lookup atoms1 atoms2 m hok k i f atoms2[k] a
      ((atoms2[k]).args[i]) hk hk2 hi hi2
    rw [hl]
    rfl
  · intro k l i j f g f2 g2 a o o' h1 h2 h3 h4 h5 h6 h7 h8 hne
    rcases hres : get_mapping atoms1 atoms2 with _ | _ | m
    · exact absurd hres (get_mapping_ne_raised atoms1 atoms2 hlen hwf)
    · rfl
    · exfalso
      have ha : lookupM m a = some o :=
        get_mapping_ok_lookup atoms1 atoms2 m hres k i f g a o h1 h2 h5 h6
      have hb : lookupM m a = some o' :=
        get_mapping_ok_lookup atoms1 atoms2 m hres l j f2 g2 a o' h3 h4 h7 h8
      rw [ha] at hb
      injection hb with h9
      exact hne h9

/-- C8: counterexample to the claim as stated — equal-length sequences with
matching predicates where an argument count differs: `get_mapping` raises an
assertion failure instead of returning failure or a mapping. -/
theorem claim_C8_counterexample :
    ([(⟨"P", [Arg.param "x", Arg.param "y"]⟩ : DFact)].length =
      [(⟨"P", [⟨0⟩]⟩ : GAtom)].length) ∧
    (⟨"P", [Arg.param "x", Arg.param "y"]⟩ : DFact).pred =
      (⟨"P", [(⟨0⟩ : Obj)]⟩ : GAtom).pred ∧
    get_mapping [⟨"P", [Arg.param "x", Arg.param "y"]⟩] [⟨"P", [⟨0⟩]⟩] =
      .raised := by
  exact ⟨rfl, rfl, by decide⟩

/-- C8: witness instantiating the amended theorem at a concrete input. -/
theorem claim_C8_witness :
    get_mapping [⟨"P", [Arg.param "x"]⟩] [⟨"P", [⟨5⟩]⟩] ≠ .raised ∧
    (∀ m f a, get_mapping [⟨"P", [Arg.param "x"]⟩] [⟨"P", [⟨5⟩]⟩] = .ok m →
      f ∈ [(⟨"P", [Arg.param "x"]⟩ : DFact)] → a ∈ f.args →
      (lookupM m a).isSome = true) ∧
    (∀ (k l i j : Nat) f g f2 g2 a o o',
      [(⟨"P", [Arg.param "x"]⟩ : DFact)][k]? = some f →
      [(⟨"P", [(⟨5⟩ : Obj)]⟩ : GAtom)][k]? = some g →
      [(⟨"P", [Arg.param "x"]⟩ : DFact)][l]? = some f2 →
      [(⟨"P", [(⟨5⟩ : Obj)]⟩ : GAtom)][l]? = some g2 →
      f.args[i]? = some a → g.args[i]? = some o →
      f2.args[j]? = some a → g2.args[j]? = some o' → o ≠ o' →
      get_mapping [⟨"P", [Arg.param "x"]⟩] [⟨"P", [⟨5⟩]⟩] = .failed) :=
  claim_C8_amended [⟨"P", [Arg.param "x"]⟩] [⟨"P", [⟨5⟩]⟩] rfl
    (by
      intro k f g h1 h2
      rcases k with _ | k
      · simp only [List.getElem?_cons_zero, Option.some.injEq] at h1 h2
        subst h1
        subst h2
        exact ⟨rfl, rfl⟩
      · simp at h1)

theorem mem_listProd (values : List (List α)) :
    ∀ combo, combo ∈ listProd values ↔
      (combo.length = values.length ∧
       ∀ (k : Nat) y lst, combo[k]? = some y → values[k]? = some lst →
         y ∈ lst) := by
  induction values with
  | nil =>
    intro combo
    constructor
    · intro h
      obtain rfl : combo = [] := by simpa [listProd] using h
      exact ⟨rfl, by simp⟩
    · rintro ⟨hlen, _⟩
      simp [listProd, List.length_eq_zero.1 hlen]
  | cons l rest ih =>
    intro combo
    constructor
    · intro h
      rw [listProd, List.mem_flatMap] at h
      obtain ⟨x, hx, hmap⟩ := h
      rw [List.mem_map] at hmap
      obtain ⟨c2, hc2, rfl⟩ := hmap
      obtain ⟨hlen, hpt⟩ := (ih c2).1 hc2
      refine ⟨by simp [hlen], ?_⟩
      intro k y lst hy hlst
      cases k with
      | zero =>
        simp only [List.getElem?_cons_zero, Option.some.injEq] at hy hlst
        rw [← hy, ← hlst]
        exact hx
      | succ n =>
        simp only [List.getElem?_cons_succ] at hy hlst
        exact hpt n y lst hy hlst
    · rintro ⟨hlen, hpt⟩
      cases combo with
      | nil => simp at hlen
      | cons y c2 =>
        rw [listProd, List.mem_flatMap]
        refine ⟨y, hpt 0 y l (by simp) (by simp), ?_⟩
        rw [List.mem_map]
        refine ⟨c2, (ih c2).2 ⟨by simpa using hlen, ?_⟩, rfl⟩
        intro k z lst hz hlst
        exact hpt (k+1) z lst (by simpa using hz) (by simpa using hlst)

theorem compatB_iff (df : DFact) (h : GAtom) :
    compatB df h = true ↔ (h.pred = df.pred ∧ h.args.length = df.args.length ∧
      constMismatch (h.args.zip df.args) = false) := by
  simp [compatB, Bool.and_eq_true, decide_eq_true_eq, Bool.not_eq_true',
    and_assoc]

theorem compatB_shape (df : DFact) (h : GAtom) (hc : compatB df h = true) :
    h.pred = df.pred ∧ h.args.length = df.args.length := by
  rw [compatB_iff] at hc
  exact ⟨hc.1, hc.2.1⟩

theorem compatB_const (df : DFact) (h : GAtom) (hc : compatB df h = true) :
    ∀ (p : Nat) c, df.args[p]? = some (Arg.const c) → h.args[p]? = some c := by
  rw [compatB_iff] at hc
  obtain ⟨_, hlen, hmis⟩ := hc
  intro p c hdf
  obtain ⟨hplt, _⟩ := List.getElem?_eq_some.1 hdf
  have hplt2 : p < h.args.length := by rw [hlen]; exact hplt
  have hh : h.args[p]? = some (h.args[p]) := List.getElem?_eq_getElem hplt2
  by_cases heq : h.args[p] = c
  · rw [hh, heq]
  · exfalso
    have hz : (h.args.zip df.args)[p]? = some (h.args[p], Arg.const c) :=
      List.getElem?_zip_eq_some.2 ⟨hh, hdf⟩
    have hmt : constMismatch (h.args.zip df.args) = true := by
      rw [constMismatch, List.any_eq_true]
      exact ⟨_, List.getElem?_mem hz, by simp [heq]⟩
    rw [hmt] at hmis
    exact absurd hmis (by simp)

theorem compatB_of_guards (df : DFact) (h : GAtom) (hpred : h.pred = df.pred)
    (hlen : h.args.length = df.args.length)
    (hmis : constMismatch (h.args.zip df.args) = false) :
    compatB df h = true := by
  rw [compatB_iff]
  exact ⟨hpred, hlen, hmis⟩

theorem addInstance_fields (s : EState) (st : Strm) (objs : List Obj) :
    (_add_instance s st objs).1.streams = s.streams ∧
    (_add_instance s st objs).1.atoms = s.atoms ∧
    (_add_instance s st objs).1.atoms_from_domain = s.atoms_from_domain := by
  by_cases hmem : st.get_instance objs ∈ s.stream_instances <;>
    simp [_add_instance, hmem]

theorem addInstance_inst_iff (s : EState) (st : Strm) (objs : List Obj)
    (x : Inst) :
    x ∈ (_add_instance s st objs).1.stream_instances ↔
      (x ∈ s.stream_instances ∨ x = st.get_instance objs) := by
  by_cases hmem : st.get_instance objs ∈ s.stream_instances
  · simp only [_add_instance, if_pos hmem]
    constructor
    · exact Or.inl
    · rintro (hx | rfl)
      · exact hx
      · exact hmem
  · simp [_add_instance, hmem]

theorem addInstance_mem (s : EState) (st : Strm) (objs : List Obj) :
    st.get_instance objs ∈ (_add_instance s st objs).1.stream_instances := by
  rw [addInstance_inst_iff]
  exact Or.inr rfl

theorem addInstance_steps (s : EState) (st : Strm) (objs : List Obj) :
    Steps s (_add_instance s st objs).1 := by
  by_cases hmem : st.get_instance objs ∈ s.stream_instances
  · simp only [_add_instance, if_pos hmem]
    exact ⟨rfl, rfl, fun _ hx => hx, [], by simp, by simp⟩
  · simp only [_add_instance, if_neg hmem]
    refine ⟨rfl, rfl, fun x hx => List.mem_append.2 (Or.inl hx),
      [st.get_instance objs], rfl, ?_⟩
    intro x hx
    rw [List.mem_singleton] at hx
    rw [hx]
    exact hmem

theorem addInstance_QI (s : EState) (st : Strm) (objs : List Obj) (h : QI s) :
    QI (_add_instance s st objs).1 := by
  intro x
  by_cases hmem : st.get_instance objs ∈ s.stream_instances
  · simp only [_add_instance, if_pos hmem]
    exact h x
  · simp only [_add_instance, if_neg hmem]
    simp [List.mem_append, h x]

theorem steps_refl (s : EState) : Steps s s :=
  ⟨rfl, rfl, fun _ h => h, [], by simp, by simp⟩

theorem Steps.trans {s1 s2 s3 : EState} (a : Steps s1 s2) (b : Steps s2 s3) :
    Steps s1 s3 := by
  obtain ⟨t1, ht1, hf1⟩ := a.queue_ext
  obtain ⟨t2, ht2, hf2⟩ := b.queue_ext
  refine ⟨b.streams_eq.trans a.streams_eq, b.atoms_eq.trans a.atoms_eq,
    fun x hx => b.inst_mono x (a.inst_mono x hx),
    t1 ++ t2, by rw [ht2, ht1, List.append_assoc], ?_⟩
  intro x hx
  rcases List.mem_append.1 hx with hx1 | hx2
  · exact hf1 x hx1
  · intro hmem
    exact hf2 x hx2 (a.inst_mono x hmem)

theorem Steps.count_eq {s s2 : EState} (h : Steps s s2) (x : Inst)
    (hx : x ∈ s.stream_instances) :
    s2.stream_queue.count x = s.stream_queue.count x := by
  obtain ⟨t, ht, hf⟩ := h.queue_ext
  rw [ht, List.count_append]
  have hz : t.count x = 0 := by
    rw [List.count_eq_zero]
    intro hmem
    exact hf x hmem hx
  rw [hz]
  exact Nat.add_zero _

theorem lookupInputs_isSome (m : Mapping) (inputs : List String)
    (h : ∀ p ∈ inputs, (lookupM m (Arg.param p)).isSome = true) :
    ∃ objs, lookupInputs m inputs = some objs := by
  induction inputs with
  | nil => exact ⟨[], rfl⟩
  | cons p rest ih =>
    obtain ⟨o, ho⟩ := Option.isSome_iff_exists.1 (h p (List.mem_cons_self _ _))
    obtain ⟨objs, hobjs⟩ := ih (fun q hq => h q (List.mem_cons_of_mem _ hq))
    refine ⟨o :: objs, ?_⟩
    rw [lookupInputs, ho, hobjs]

theorem addCombos_steps (st : Strm) (combos : List (List GAtom)) :
    ∀ s, Steps s (addCombos st s combos).1 ∧
      (addCombos st s combos).1.atoms_from_domain = s.atoms_from_domain := by
  induction combos with
  | nil => intro s; exact ⟨steps_refl s, rfl⟩
  | cons combo rest ih =>
    intro s
    rw [addCombos]
    cases hgm : get_mapping st.domain combo with
    | raised => simp only [hgm]; exact ⟨steps_refl s, by simp⟩
    | failed => simp only [hgm]; exact ih s
    | ok mapping =>
      simp only [hgm]
      cases hli : lookupInputs mapping st.inputs with
      | none => simp only [hli]; exact ⟨steps_refl s, by simp⟩
      | some objs =>
        simp only [hli]
        obtain ⟨hs, hidx⟩ := ih (_add_instance s st objs).1
        obtain ⟨_, _, hf3⟩ := addInstance_fields s st objs
        exact ⟨(addInstance_steps s st objs).trans hs, by rw [hidx, hf3]⟩

theorem addCombos_QI (st : Strm) (combos : List (List GAtom)) :
    ∀ s, QI s → QI (addCombos st s combos).1 := by
  induction combos with
  | nil => intro s h; exact h
  | cons combo rest ih =>
    intro s h
    rw [addCombos]
    cases hgm : get_mapping st.domain combo with
    | raised => simp only [hgm]; exact h
    | failed => simp only [hgm]; exact ih s h
    | ok mapping =>
      simp only [hgm]
      cases hli : lookupInputs mapping st.inputs with
      | none => simp only [hli]; exact h
      | some objs =>
        simp only [hli]
        exact ih _ (addInstance_QI s st objs h)

theorem addCombos_inst_sub (st : Strm) (combos : List (List GAtom)) :
    ∀ s x, x ∈ (addCombos st s combos).1.stream_instances →
      x ∈ s.stream_instances ∨ ∃ combo ∈ combos, instFrom st combo = some x := by
  induction combos with
  | nil => intro s x hx; exact Or.inl hx
  | cons combo rest ih =>
    intro s x hx
    rw [addCombos] at hx
    cases hgm : get_mapping st.domain combo with
    | raised => simp only [hgm] at hx; exact Or.inl hx
    | failed =>
      simp only [hgm] at hx
      rcases ih s x hx with h | ⟨c, hc, hi⟩
      · exact Or.inl h
      · exact Or.inr ⟨c, List.mem_cons_of_mem _ hc, hi⟩
    | ok mapping =>
      simp only [hgm] at hx
      cases hli : lookupInputs mapping st.inputs with
      | none => simp only [hli] at hx; exact Or.inl hx
      | some objs =>
        simp only [hli] at hx
        rcases ih _ x hx with h | ⟨c, hc, hi⟩
        · rcases (addInstance_inst_iff s st objs x).1 h with h2 | h2
          · exact Or.inl h2
          · refine Or.inr ⟨combo, List.mem_cons_self _ _, ?_⟩
            simp only [instFrom, hgm, hli, Option.map_some']
            rw [h2]
            rfl
        · exact Or.inr ⟨c, List.mem_cons_of_mem _ hc, hi⟩

theorem addCombos_adds (st : Strm) (combos : List (List GAtom)) :
    ∀ s combo inst, combo ∈ combos → instFrom st combo = some inst →
      (addCombos st s combos).2 = some () →
      inst ∈ (addCombos st s combos).1.stream_instances := by
  induction combos with
  | nil => intro s combo inst h _ _; exact absurd h (List.not_mem_nil _)
  | cons c rest ih =>
    intro s combo inst hmem hinst hok
    rcases List.mem_cons.1 hmem with rfl | hmem2
    · rw [instFrom] at hinst
      rw [addCombos] at hok ⊢
      cases hgm : get_mapping st.domain combo with
      | raised => simp only [hgm] at hok; exact absurd hok (by simp)
      | failed => simp only [hgm] at hinst; exact absurd hinst (by simp)
      | ok mapping =>
        simp only [hgm] at hinst hok ⊢
        cases hli : lookupInputs mapping st.inputs with
        | none => rw [hli] at hinst; exact absurd hinst (by simp)
        | some objs =>
          rw [hli] at hinst
          simp only [Option.map_some', Option.some.injEq] at hinst
          simp only [hli] at hok ⊢
          have hmem1 : inst ∈ (_add_instance s st objs).1.stream_instances := by
            rw [← hinst]
            exact addInstance_mem s st objs
          exact ((addCombos_steps st rest _).1).inst_mono inst hmem1
    · rw [addCombos] at hok ⊢
      cases hgm : get_mapping st.domain c with
      | raised => simp only [hgm] at hok; exact absurd hok (by simp)
      | failed => simp only [hgm] at hok ⊢; exact ih s combo inst hmem2 hinst hok
      | ok mapping =>
        simp only [hgm] at hok ⊢
        cases hli : lookupInputs mapping st.inputs with
        | none => simp only [hli] at hok; exact absurd hok (by simp)
        | some objs =>
          simp only [hli] at hok ⊢
          exact ih _ combo inst hmem2 hinst hok

theorem addCombos_noraise (st : Strm)
    (hwfst : ∀ p ∈ st.inputs, ∃ df ∈ st.domain, Arg.param p ∈ df.args) :
    ∀ combos : List (List GAtom),
      (∀ combo ∈ combos, combo.length = st.domain.length ∧
        ∀ (k : Nat) x df, combo[k]? = some x → st.domain[k]? = some df →
          x.pred = df.pred ∧ x.args.length = df.args.length) →
      ∀ s, (addCombos st s combos).2 = some () := by
  intro combos
  induction combos with
  | nil => intro _ s; rfl
  | cons cmb rest ih =>
    intro hshape s
    have hcsh := hshape cmb (List.mem_cons_self _ _)
    rw [addCombos]
    cases hgm : get_mapping st.domain cmb with
    | raised =>
      exfalso
      refine get_mapping_ne_raised st.domain cmb hcsh.1.symm ?_ hgm
      intro k f g h1 h2
      obtain ⟨hp, hl⟩ := hcsh.2 k g f h2 h1
      exact ⟨hp.symm, hl.symm⟩
    | failed =>
      simp only [hgm]
      exact ih (fun cc hcc => hshape cc (List.mem_cons_of_mem _ hcc)) s
    | ok mapping =>
      simp only [hgm]
      have hbinds : ∀ p ∈ st.inputs,
          (lookupM mapping (Arg.param p)).isSome = true := by
        intro p hp
        obtain ⟨df, hdf, hparg⟩ := hwfst p hp
        obtain ⟨k, hk⟩ := List.mem_iff_getElem?.1 hdf
        obtain ⟨i, hi⟩ := List.mem_iff_getElem?.1 hparg
        obtain ⟨hklt, _⟩ := List.getElem?_eq_some.1 hk
        have hklt2 : k < cmb.length := by rw [hcsh.1]; exact hklt
        have hck : cmb[k]? = some (cmb[k]) := List.getElem?_eq_getElem hklt2
        obtain ⟨_, hargl⟩ := hcsh.2 k (cmb[k]) df hck hk
        obtain ⟨hilt, _⟩ := List.getElem?_eq_some.1 hi
        have hilt2 : i < (cmb[k]).args.length := by rw [hargl]; exact hilt
        have hci : (cmb[k]).args[i]? = some ((cmb[k]).args[i]) :=
          List.getElem?_eq_getElem hilt2
        have hlook := get_mapping_ok_lookup st.domain cmb mapping hgm k i df
          (cmb[k]) (Arg.param p) ((cmb[k]).args[i]) hk hck hi hci
        rw [hlook]
        rfl
      obtain ⟨objs, hobjs⟩ := lookupInputs_isSome mapping st.inputs hbinds
      simp only [hobjs]
      exact ih (fun cc hcc => hshape cc (List.mem_cons_of_mem _ hcc)) _

theorem safe_zip_eq_some {α β : Type} {xs : List α} {ys : List β}
    {ps : List (α × β)} (h : safe_zip xs ys = some ps) :
    xs.length = ys.length ∧ ps = xs.zip ys := by
  by_cases hlen : xs.length = ys.length
  · rw [safe_zip, if_pos hlen] at h
    injection h with h2
    exact ⟨hlen, h2.symm⟩
  · rw [safe_zip, if_neg hlen] at h
    exact absurd h (by simp)

theorem drop_eq_cons_getElem? {α : Type} {l : List α} {j : Nat} {df : α}
    {rest : List α} (h : l.drop j = df :: rest) :
    l[j]? = some df ∧ l.drop (j+1) = rest := by
  constructor
  · have h0 : (l.drop j)[0]? = some df := by rw [h]; simp
    rw [List.getElem?_drop] at h0
    simpa using h0
  · have h1 : (l.drop j).drop 1 = rest := by rw [h]; simp
    rw [List.drop_drop] at h1
    simpa [Nat.add_comm] using h1

theorem slotState_idx (i : Nat) (head : GAtom) (s : EState) (j : Nat)
    (i2 j2 : Nat) :
    (slotState i head s j).atoms_from_domain (i2, j2) =
      if (i2, j2) = (i, j) then s.atoms_from_domain (i, j) ++ [head]
      else s.atoms_from_domain (i2, j2) := rfl

theorem slotState_fields (i : Nat) (head : GAtom) (s : EState) (j : Nat) :
    (slotState i head s j).streams = s.streams ∧
    (slotState i head s j).atoms = s.atoms ∧
    (slotState i head s j).stream_instances = s.stream_instances ∧
    (slotState i head s j).stream_queue = s.stream_queue :=
  ⟨rfl, rfl, rfl, rfl⟩

theorem slotValues_getElem? (st : Strm) (i : Nat) (head : GAtom) (s1 : EState)
    (j k : Nat) (hk : k < st.domain.length) :
    (slotValues st i head s1 j)[k]? =
      some (if j ≠ k then s1.atoms_from_domain (i, k) else [head]) := by
  rw [slotValues, List.getElem?_map]
  rw [List.getElem?_range hk]
  rfl

theorem slotValues_length (st : Strm) (i : Nat) (head : GAtom) (s1 : EState)
    (j : Nat) : (slotValues st i head s1 j).length = st.domain.length := by
  rw [slotValues, List.length_map, List.length_range]

theorem addInstance_nodup (s : EState) (st : Strm) (objs : List Obj)
    (hq : QI s) (hn : s.stream_queue.Nodup) :
    (_add_instance s st objs).1.stream_queue.Nodup := by
  by_cases hmem : st.get_instance objs ∈ s.stream_instances
  · simp only [_add_instance, if_pos hmem]
    exact hn
  · simp only [_add_instance, if_neg hmem]
    rw [List.nodup_append]
    refine ⟨hn, List.nodup_singleton _, ?_⟩
    intro x hx hx2
    rw [List.mem_singleton] at hx2
    rw [hx2] at hx
    exact hmem ((hq _).1 hx)

theorem addCombos_nodup (st : Strm) (combos : List (List GAtom)) :
    ∀ s, QI s → s.stream_queue.Nodup →
      (addCombos st s combos).1.stream_queue.Nodup := by
  induction combos with
  | nil => intro s _ hn; exact hn
  | cons combo rest ih =>
    intro s hq hn
    rw [addCombos]
    cases hgm : get_mapping st.domain combo with
    | raised => simp only [hgm]; exact hn
    | failed => simp only [hgm]; exact ih s hq hn
    | ok mapping =>
      simp only [hgm]
      cases hli : lookupInputs mapping st.inputs with
      | none => simp only [hli]; exact hn
      | some objs =>
        simp only [hli]
        exact ih _ (addInstance_QI s st objs hq) (addInstance_nodup s st objs hq hn)

theorem procSlot_step_sound (st : Strm) (i : Nat) (h : GAtom) (s : EState)
    (j : Nat) (df : DFact) (hdj : st.domain[j]? = some df)
    (hcompat : compatB df h = true) :
    ∀ s2 ores, _add_combinations (slotState i h s j) st
        (slotValues st i h (slotState i h s j) j) = (s2, ores) →
      Steps s s2 ∧ (QI s → QI s2) ∧
      (QI s → s.stream_queue.Nodup → s2.stream_queue.Nodup) ∧
      (∀ i2 j2 : Nat, s2.atoms_from_domain (i2, j2) =
          s.atoms_from_domain (i2, j2) ∨
        (i2 = i ∧ j2 = j ∧ s2.atoms_from_domain (i2, j2) =
          s.atoms_from_domain (i2, j2) ++ [h])) ∧
      (∀ x ∈ s2.stream_instances, x ∈ s.stream_instances ∨
        ∃ combo, combo.length = st.domain.length ∧
          (∀ (k : Nat) y df2, combo[k]? = some y → st.domain[k]? = some df2 →
            (y ∈ s.atoms_from_domain (i, k) ∨ (y = h ∧ compatB df2 y = true))) ∧
          instFrom st combo = some x) := by
  intro s2 ores hac
  have hs2 : s2 =
      (addCombos st (slotState i h s j)
        (listProd (slotValues st i h (slotState i h s j) j))).1 := by
    rw [show addCombos st (slotState i h s j)
        (listProd (slotValues st i h (slotState i h s j) j)) =
      _add_combinations (slotState i h s j) st
        (slotValues st i h (slotState i h s j) j) from rfl, hac]
  have hsteps1 : Steps s (slotState i h s j) :=
    ⟨rfl, rfl, fun _ hx => hx, [], (List.append_nil _).symm, by simp⟩
  obtain ⟨hACs, hACidx⟩ := addCombos_steps st
    (listProd (slotValues st i h (slotState i h s j) j)) (slotState i h s j)
  refine ⟨?_, ?_, ?_, ?_, ?_⟩
  · rw [hs2]
    exact hsteps1.trans hACs
  · intro hq
    rw [hs2]
    exact addCombos_QI st _ _ (fun x => hq x)
  · intro hq hn
    rw [hs2]
    exact addCombos_nodup st _ _ (fun x => hq x) hn
  · intro i2 j2
    rw [hs2, hACidx, slotState_idx]
    by_cases hkey : ((i2, j2) : Nat × Nat) = (i, j)
    · rw [if_pos hkey]
      obtain ⟨h1, h2⟩ := Prod.mk.injEq .. ▸ hkey
      refine Or.inr ⟨h1, h2, ?_⟩
      rw [h1, h2]
    · rw [if_neg hkey]
      exact Or.inl rfl
  · intro x hx
    rw [hs2] at hx
    rcases addCombos_inst_sub st _ _ x hx with h1 | ⟨combo, hcm, hcf⟩
    · exact Or.inl h1
    · obtain ⟨hclen, hcpt⟩ := (mem_listProd _ combo).1 hcm
      rw [slotValues_length] at hclen
      refine Or.inr ⟨combo, hclen, ?_, hcf⟩
      intro k y df2 hy hdf2
      obtain ⟨hklt0, _⟩ := List.getElem?_eq_some.1 hdf2
      have hval := slotValues_getElem? st i h (slotState i h s j) j k hklt0
      have hyv := hcpt k y _ hy hval
      by_cases hjk : j = k
      · rw [if_neg (by simp [hjk])] at hyv
        rw [List.mem_singleton] at hyv
        have hdfeq : df2 = df := by
          rw [← hjk] at hdf2
          rw [hdj] at hdf2
          injection hdf2 with hh
          exact hh.symm
        rw [hdfeq]
        exact Or.inr ⟨hyv, hyv ▸ hcompat⟩
      · rw [if_pos hjk] at hyv
        rw [slotState_idx] at hyv
        rw [if_neg (show ¬((i, k) : Nat × Nat) = (i, j) by
          simp only [Prod.mk.injEq, true_and]
          exact fun hc => hjk hc.symm)] at hyv
        exact Or.inl hyv

theorem procSlots_sound (st : Strm) (i : Nat) (h : GAtom) :
    ∀ (dfs : List DFact) (j : Nat) (s : EState),
      st.domain.drop j = dfs →
      Steps s (procSlots st i h s dfs j).1 ∧
      (QI s → QI (procSlots st i h s dfs j).1) ∧
      (QI s → s.stream_queue.Nodup →
        (procSlots st i h s dfs j).1.stream_queue.Nodup) ∧
      (∀ i2 j2 : Nat, (procSlots st i h s dfs j).1.atoms_from_domain (i2, j2) =
          s.atoms_from_domain (i2, j2) ∨
        (i2 = i ∧ j ≤ j2 ∧ ∃ df, st.domain[j2]? = some df ∧
          compatB df h = true ∧
          (procSlots st i h s dfs j).1.atoms_from_domain (i2, j2) =
            s.atoms_from_domain (i2, j2) ++ [h])) ∧
      (∀ x ∈ (procSlots st i h s dfs j).1.stream_instances,
        x ∈ s.stream_instances ∨
        ∃ combo, combo.length = st.domain.length ∧
          (∀ (k : Nat) y df, combo[k]? = some y → st.domain[k]? = some df →
            (y ∈ s.atoms_from_domain (i, k) ∨ (y = h ∧ compatB df y = true))) ∧
          instFrom st combo = some x) := by
  intro dfs
  induction dfs with
  | nil =>
    intro j s _
    exact ⟨steps_refl s, fun q => q, fun _ hn => hn, fun _ _ => Or.inl rfl,
      fun x hx => Or.inl hx⟩
  | cons df rest ih =>
    intro j s hdrop
    obtain ⟨hdj, hdrop2⟩ := drop_eq_cons_getElem? hdrop
    rw [procSlots]
    by_cases hpred : h.pred = df.pred
    · rw [if_pos hpred]
      cases hsz : safe_zip h.args df.args with
      | none =>
        simp only [hsz]
        exact ⟨steps_refl s, fun q => q, fun _ hn => hn,
          fun _ _ => Or.inl (by simp), fun x hx => Or.inl hx⟩
      | some pairs =>
        obtain ⟨hlen, rfl⟩ := safe_zip_eq_some hsz
        simp only [hsz]
        cases hmis : constMismatch (h.args.zip df.args) with
        | true =>
          rw [if_pos rfl]
          obtain ⟨ha, hb, hn, hc, hd⟩ := ih (j+1) s hdrop2
          refine ⟨ha, hb, hn, ?_, hd⟩
          intro i2 j2
          rcases hc i2 j2 with h1 | ⟨he, hle, df2, hdf2, hcp, happ⟩
          · exact Or.inl h1
          · exact Or.inr ⟨he, Nat.le_of_succ_le hle, df2, hdf2, hcp, happ⟩
        | false =>
          rw [if_neg (by simp)]
          have hcompat : compatB df h = true :=
            compatB_of_guards df h hpred hlen hmis
          rcases hac : _add_combinations (slotState i h s j) st
              (slotValues st i h (slotState i h s j) j) with ⟨s2, ores⟩
          obtain ⟨hS, hQ, hN, hIdx, hInst⟩ :=
            procSlot_step_sound st i h s j df hdj hcompat s2 ores hac
          have hcomp_idx : ∀ (r : EState),
              (∀ i2 j2 : Nat, r.atoms_from_domain (i2, j2) =
                  s2.atoms_from_domain (i2, j2) ∨
                (i2 = i ∧ j+1 ≤ j2 ∧ ∃ df2, st.domain[j2]? = some df2 ∧
                  compatB df2 h = true ∧
                  r.atoms_from_domain (i2, j2) =
                    s2.atoms_from_domain (i2, j2) ++ [h])) →
              ∀ i2 j2 : Nat, r.atoms_from_domain (i2, j2) =
                  s.atoms_from_domain (i2, j2) ∨
                (i2 = i ∧ j ≤ j2 ∧ ∃ df2, st.domain[j2]? = some df2 ∧
                  compatB df2 h = true ∧
                  r.atoms_from_domain (i2, j2) =
                    s.atoms_from_domain (i2, j2) ++ [h]) := by
            intro r hr i2 j2
            rcases hr i2 j2 with h1 | ⟨he, hle, df2, hdf2, hcp, happ⟩
            · rcases hIdx i2 j2 with h2 | ⟨he, hj2, happ⟩
              · exact Or.inl (h1.trans h2)
              · exact Or.inr ⟨he, hj2 ▸ Nat.le_refl j, df, hj2 ▸ hdj, hcompat,
                  h1.trans happ⟩
            · rcases hIdx i2 j2 with h2 | ⟨_, hj2, _⟩
              · exact Or.inr ⟨he, Nat.le_of_succ_le hle, df2, hdf2, hcp,
                  happ.trans (by rw [h2])⟩
              · exfalso
                rw [hj2] at hle
                exact Nat.not_succ_le_self j hle
          have hcomp_inst : ∀ (r : EState),
              (∀ x ∈ r.stream_instances, x ∈ s2.stream_instances ∨
                ∃ combo, combo.length = st.domain.length ∧
                  (∀ (k : Nat) y df2, combo[k]? = some y →
                    st.domain[k]? = some df2 →
                    (y ∈ s2.atoms_from_domain (i, k) ∨
                      (y = h ∧ compatB df2 y = true))) ∧
                  instFrom st combo = some x) →
              ∀ x ∈ r.stream_instances, x ∈ s.stream_instances ∨
                ∃ combo, combo.length = st.domain.length ∧
                  (∀ (k : Nat) y df2, combo[k]? = some y →
                    st.domain[k]? = some df2 →
                    (y ∈ s.atoms_from_domain (i, k) ∨
                      (y = h ∧ compatB df2 y = true))) ∧
                  instFrom st combo = some x := by
            intro r hr x hx
            rcases hr x hx with h1 | ⟨combo, hclen, hcpt, hcf⟩
            · exact hInst x h1
            · refine Or.inr ⟨combo, hclen, ?_, hcf⟩
              intro k y df2 hy hdf2
              rcases hcpt k y df2 hy hdf2 with h2 | h2
              · rcases hIdx i k with h3 | ⟨_, hkj, happ⟩
                · rw [h3] at h2
                  exact Or.inl h2
                · rw [happ] at h2
                  rcases List.mem_append.1 h2 with h4 | h4
                  · exact Or.inl h4
                  · rw [List.mem_singleton] at h4
                    have hdfeq : df2 = df := by
                      rw [hkj] at hdf2
                      rw [hdj] at hdf2
                      injection hdf2 with hh
                      exact hh.symm
                    exact Or.inr ⟨h4, by rw [hdfeq, h4]; exact hcompat⟩
              · exact Or.inr h2
          cases ores with
          | none =>
            simp only []
            exact ⟨hS, hQ, hN, hcomp_idx s2 (fun _ _ => Or.inl rfl),
              hcomp_inst s2 (fun x hx => Or.inl hx)⟩
          | some u =>
            simp only []
            obtain ⟨ha2, hb2, hn2, hc2, hd2⟩ := ih (j+1) s2 hdrop2
            refine ⟨hS.trans ha2, fun hq => hb2 (hQ hq),
              fun hq hn => hn2 (hQ hq) (hN hq hn), hcomp_idx _ hc2, ?_⟩
            intro x hx
            exact hcomp_inst _ hd2 x hx
    · rw [if_neg hpred]
      obtain ⟨ha, hb, hn, hc, hd⟩ := ih (j+1) s hdrop2
      refine ⟨ha, hb, hn, ?_, hd⟩
      intro i2 j2
      rcases hc i2 j2 with h1 | ⟨he, hle, df2, hdf2, hcp, happ⟩
      · exact Or.inl h1
      · exact Or.inr ⟨he, Nat.le_of_succ_le hle, df2, hdf2, hcp, happ⟩

theorem procStreams_sound (h : GAtom) :
    ∀ (sts : List Strm) (i : Nat) (s : EState),
      s.streams.drop i = sts →
      Steps s (procStreams h s sts i).1 ∧
      (QI s → QI (procStreams h s sts i).1) ∧
      (QI s → s.stream_queue.Nodup →
        (procStreams h s sts i).1.stream_queue.Nodup) ∧
      (∀ i2 j2 : Nat, (procStreams h s sts i).1.atoms_from_domain (i2, j2) =
          s.atoms_from_domain (i2, j2) ∨
        (i ≤ i2 ∧ ∃ st df, s.streams[i2]? = some st ∧
          st.domain[j2]? = some df ∧ compatB df h = true ∧
          (procStreams h s sts i).1.atoms_from_domain (i2, j2) =
            s.atoms_from_domain (i2, j2) ++ [h])) ∧
      (∀ x ∈ (procStreams h s sts i).1.stream_instances,
        x ∈ s.stream_instances ∨
        ∃ (i2 : Nat) (st : Strm) (combo : List GAtom), s.streams[i2]? = some st ∧
          combo.length = st.domain.length ∧
          (∀ (k : Nat) y df, combo[k]? = some y → st.domain[k]? = some df →
            (y ∈ s.atoms_from_domain (i2, k) ∨ (y = h ∧ compatB df y = true))) ∧
          instFrom st combo = some x) := by
  intro sts
  induction sts with
  | nil =>
    intro i s _
    exact ⟨steps_refl s, fun q => q, fun _ hn => hn,
      fun _ _ => Or.inl rfl, fun x hx => Or.inl hx⟩
  | cons st rest ih =>
    intro i s hdrop
    obtain ⟨hsi, hdrop2⟩ := drop_eq_cons_getElem? hdrop
    rw [procStreams]
    obtain ⟨hS, hQ, hN, hIdx, hInst⟩ :=
      procSlots_sound st i h st.domain 0 s rfl
    rcases hps : procSlots st i h s st.domain 0 with ⟨s2, ores⟩
    rw [hps] at hS hQ hN hIdx hInst
    have hIdx2 : ∀ i2 j2 : Nat, s2.atoms_from_domain (i2, j2) =
        s.atoms_from_domain (i2, j2) ∨
        (i2 = i ∧ ∃ df, st.domain[j2]? = some df ∧ compatB df h = true ∧
          s2.atoms_from_domain (i2, j2) =
            s.atoms_from_domain (i2, j2) ++ [h]) := by
      intro i2 j2
      rcases hIdx i2 j2 with h1 | ⟨he, _, df, hdf, hcp, happ⟩
      · exact Or.inl h1
      · exact Or.inr ⟨he, df, hdf, hcp, happ⟩
    have hInst2 : ∀ x ∈ s2.stream_instances, x ∈ s.stream_instances ∨
        ∃ (i2 : Nat) (st2 : Strm) (combo : List GAtom), s.streams[i2]? = some st2 ∧
          combo.length = st2.domain.length ∧
          (∀ (k : Nat) y df, combo[k]? = some y → st2.domain[k]? = some df →
            (y ∈ s.atoms_from_domain (i2, k) ∨ (y = h ∧ compatB df y = true))) ∧
          instFrom st2 combo = some x := by
      intro x hx
      rcases hInst x hx with h1 | ⟨combo, hclen, hcpt, hcf⟩
      · exact Or.inl h1
      · exact Or.inr ⟨i, st, combo, hsi, hclen, hcpt, hcf⟩
    cases ores with
    | none =>
      simp only []
      exact ⟨hS, hQ, hN,
        fun i2 j2 => by
          rcases hIdx2 i2 j2 with h1 | ⟨he, df, hdf, hcp, happ⟩
          · exact Or.inl h1
          · exact Or.inr ⟨he ▸ Nat.le_refl i, st, df, he ▸ hsi, hdf, hcp, happ⟩,
        hInst2⟩
    | some u =>
      simp only []
      have hdrop3 : s2.streams.drop (i+1) = rest := by
        rw [hS.streams_eq]
        exact hdrop2
      obtain ⟨ha2, hb2, hn2, hc2, hd2⟩ := ih (i+1) s2 hdrop3
      refine ⟨hS.trans ha2, fun hq => hb2 (hQ hq),
        fun hq hn => hn2 (hQ hq) (hN hq hn), ?_, ?_⟩
      · intro i2 j2
        rcases hc2 i2 j2 with h1 | ⟨hle, st2, df, hst2, hdf, hcp, happ⟩
        · rcases hIdx2 i2 j2 with h2 | ⟨he, df, hdf, hcp, happ⟩
          · exact Or.inl (h1.trans h2)
          · exact Or.inr ⟨he ▸ Nat.le_refl i, st, df, he ▸ hsi, hdf, hcp,
              h1.trans happ⟩
        · rw [hS.streams_eq] at hst2
          rcases hIdx2 i2 j2 with h2 | ⟨he, _, _, _, _⟩
          · exact Or.inr ⟨Nat.le_of_succ_le hle, st2, df, hst2, hdf, hcp,
              happ.trans (by rw [h2])⟩
          · exfalso
            rw [he] at hle
            exact Nat.not_succ_le_self i hle
      · intro x hx
        rcases hd2 x hx with h1 | ⟨i2, st2, combo, hst2, hclen, hcpt, hcf⟩
        · exact hInst2 x h1
        · rw [hS.streams_eq] at hst2
          refine Or.inr ⟨i2, st2, combo, hst2, hclen, ?_, hcf⟩
          intro k y df hy hdf
          rcases hcpt k y df hy hdf with h2 | h2
          · rcases hIdx2 i2 k with h3 | ⟨he, df2, hdf2, hcp2, happ2⟩
            · rw [h3] at h2
              exact Or.inl h2
            · rw [happ2] at h2
              rcases List.mem_append.1 h2 with h4 | h4
              · exact Or.inl h4
              · rw [List.mem_singleton] at h4
                have hsteq : st2 = st := by
                  rw [he] at hst2
                  rw [hsi] at hst2
                  injection hst2 with hh
                  exact hh.symm
                have hdfeq : df = df2 := by
                  rw [hsteq] at hdf
                  rw [hdf] at hdf2
                  exact Option.some.inj hdf2
                exact Or.inr ⟨h4, by rw [hdfeq, h4]; exact hcp2⟩
          · exact Or.inr h2

theorem Derivable_mono (streams : List Strm) {A B : List GAtom}
    (hab : ∀ y ∈ A, y ∈ B) (inst : Inst) (h : Derivable streams A inst) :
    Derivable streams B inst := by
  obtain ⟨st, combo, hst, hlen, hel, hif⟩ := h
  refine ⟨st, combo, hst, hlen, ?_, hif⟩
  intro k x df hx hdf
  obtain ⟨hxa, hcp⟩ := hel k x df hx hdf
  exact ⟨hab x hxa, hcp⟩

theorem add_atom_cases (s : EState) (inp : Input) :
    (add_atom s inp).1.streams = s.streams ∧
    (∀ x ∈ s.stream_instances, x ∈ (add_atom s inp).1.stream_instances) ∧
    (∃ t, (add_atom s inp).1.stream_queue = s.stream_queue ++ t ∧
      ∀ x ∈ t, x ∉ s.stream_instances) ∧
    (QI s → QI (add_atom s inp).1) ∧
    (QI s → s.stream_queue.Nodup → (add_atom s inp).1.stream_queue.Nodup) ∧
    (∃ t2, (add_atom s inp).1.atoms = s.atoms ++ t2) := by
  cases inp with
  | nonAtom =>
    exact ⟨rfl, fun _ hx => hx, ⟨[], (List.append_nil _).symm, by simp⟩,
      fun q => q, fun _ hn => hn, ⟨[], (List.append_nil _).symm⟩⟩
  | atom a =>
    by_cases hmem : a ∈ s.atoms
    · rw [add_atom, if_pos hmem]
      exact ⟨rfl, fun _ hx => hx, ⟨[], (List.append_nil _).symm, by simp⟩,
        fun q => q, fun _ hn => hn, ⟨[], (List.append_nil _).symm⟩⟩
    · rw [add_atom, if_neg hmem]
      obtain ⟨hS, hQ, hN, _, _⟩ := procStreams_sound a
        ({ s with atoms := s.atoms ++ [a] }).streams 0
        { s with atoms := s.atoms ++ [a] } rfl
      rcases hpr : procStreams a { s with atoms := s.atoms ++ [a] }
          ({ s with atoms := s.atoms ++ [a] }).streams 0 with ⟨s2, ores⟩
      rw [hpr] at hS hQ hN
      dsimp only
      rw [hpr]
      obtain ⟨t, ht, htf⟩ := hS.queue_ext
      cases ores with
      | none =>
        simp only []
        exact ⟨hS.streams_eq, fun x hx => hS.inst_mono x hx, ⟨t, ht, htf⟩,
          fun hq => hQ (fun x => hq x), fun hq hn => hN (fun x => hq x) hn,
          ⟨[a], hS.atoms_eq⟩⟩
      | some u =>
        simp only []
        exact ⟨hS.streams_eq, fun x hx => hS.inst_mono x hx, ⟨t, ht, htf⟩,
          fun hq => hQ (fun x => hq x), fun hq hn => hN (fun x => hq x) hn,
          ⟨[a], hS.atoms_eq⟩⟩

theorem add_atom_sound_inv (s : EState) (inp : Input)
    (hidx : IdxSound s) (hinst : InstSound s) (hconst : ConstOK s) :
    IdxSound (add_atom s inp).1 ∧ InstSound (add_atom s inp).1 ∧
    ConstOK (add_atom s inp).1 := by
  cases inp with
  | nonAtom => exact ⟨hidx, hinst, hconst⟩
  | atom a =>
    by_cases hmem : a ∈ s.atoms
    · rw [add_atom, if_pos hmem]
      exact ⟨hidx, hinst, hconst⟩
    · rw [add_atom, if_neg hmem]
      set s1 : EState := { s with atoms := s.atoms ++ [a] } with hs1
      have hidx1 : IdxSound s1 := by
        intro i j st df hst hdf x hx
        obtain ⟨hxa, hcp⟩ := hidx i j st df hst hdf x hx
        exact ⟨List.mem_append.2 (Or.inl hxa), hcp⟩
      have hinst1 : InstSound s1 := by
        intro inst hins
        rcases hinst inst hins with hz | hd
        · exact Or.inl hz
        · exact Or.inr (Derivable_mono _ (fun y hy => List.mem_append.2 (Or.inl hy)) _ hd)
      have hconst1 : ConstOK s1 := hconst
      obtain ⟨hS, _, _, hIdx, hInst⟩ := procStreams_sound a s1.streams 0 s1 rfl
      rcases hpr : procStreams a s1 s1.streams 0 with ⟨s2, ores⟩
      rw [hpr] at hS hIdx hInst
      dsimp only
      rw [hpr]
      have hkey : IdxSound s2 ∧ InstSound s2 ∧ ConstOK s2 := by
        have hstr : s2.streams = s1.streams := hS.streams_eq
        have hatm : s2.atoms = s1.atoms := hS.atoms_eq
        refine ⟨?_, ?_, ?_⟩
        · intro i j st df hst hdf x hx
          rw [hstr] at hst
          rcases hIdx i j with h1 | ⟨_, st2, df2, hst2, hdf2, hcp2, happ⟩
          · rw [h1] at hx
            obtain ⟨hxa, hcp⟩ := hidx1 i j st df hst hdf x hx
            rw [hatm]
            exact ⟨hxa, hcp⟩
          · rw [happ] at hx
            rcases List.mem_append.1 hx with h2 | h2
            · obtain ⟨hxa, hcp⟩ := hidx1 i j st df hst hdf x h2
              rw [hatm]
              exact ⟨hxa, hcp⟩
            · rw [List.mem_singleton] at h2
              have hsteq : st2 = st := by
                rw [hst] at hst2
                exact (Option.some.inj hst2).symm
              have hdfeq : df2 = df := by
                rw [hsteq] at hdf2
                rw [hdf] at hdf2
                exact (Option.some.inj hdf2).symm
              rw [hatm, h2]
              refine ⟨List.mem_append.2 (Or.inr (List.mem_singleton.2 rfl)), ?_⟩
              rw [← hdfeq]
              exact hcp2
        · intro inst hins
          rcases hInst inst hins with h1 | ⟨i2, st2, combo, hst2, hclen, hcpt, hcf⟩
          · rcases hinst1 inst h1 with hz | hd
            · rw [hstr]
              exact Or.inl hz
            · rw [hstr, hatm]
              exact Or.inr hd
          · rw [hstr, hatm]
            refine Or.inr ⟨st2, combo, List.getElem?_mem hst2, hclen, ?_, hcf⟩
            intro k y df hy hdf
            rcases hcpt k y df hy hdf with h2 | ⟨rfl, hcp⟩
            · obtain ⟨hya, hcp⟩ := hidx1 i2 k st2 df hst2 hdf y h2
              exact ⟨hya, hcp⟩
            · exact ⟨List.mem_append.2 (Or.inr (List.mem_singleton.2 rfl)), hcp⟩
        · intro i j p st df c hst hdf hc x hx
          rw [hstr] at hst
          rcases hIdx i j with h1 | ⟨_, st2, df2, hst2, hdf2, hcp2, happ⟩
          · rw [h1] at hx
            exact hconst1 i j p st df c hst hdf hc x hx
          · rw [happ] at hx
            rcases List.mem_append.1 hx with h2 | h2
            · exact hconst1 i j p st df c hst hdf hc x h2
            · rw [List.mem_singleton] at h2
              have hsteq : st2 = st := by
                rw [hst] at hst2
                exact (Option.some.inj hst2).symm
              have hdfeq : df2 = df := by
                rw [hsteq] at hdf2
                rw [hdf] at hdf2
                exact (Option.some.inj hdf2).symm
              rw [h2]
              refine compatB_const df a ?_ p c hc
              rw [← hdfeq]
              exact hcp2
      cases ores with
      | none => simp only []; exact hkey
      | some u => simp only []; exact hkey

theorem runAtoms_cases (l : List Input) :
    ∀ s, (runAtoms s l).1.streams = s.streams ∧
      (∀ x ∈ s.stream_instances, x ∈ (runAtoms s l).1.stream_instances) ∧
      (∃ t, (runAtoms s l).1.stream_queue = s.stream_queue ++ t ∧
        ∀ x ∈ t, x ∉ s.stream_instances) ∧
      (QI s → QI (runAtoms s l).1) ∧
      (QI s → s.stream_queue.Nodup → (runAtoms s l).1.stream_queue.Nodup) ∧
      (∃ t2, (runAtoms s l).1.atoms = s.atoms ++ t2) := by
  induction l with
  | nil =>
    intro s
    exact ⟨rfl, fun _ hx => hx, ⟨[], (List.append_nil _).symm, by simp⟩,
      fun q => q, fun _ hn => hn, ⟨[], (List.append_nil _).symm⟩⟩
  | cons a rest ih =>
    intro s
    obtain ⟨h1, h2, ⟨t, ht, htf⟩, h4, h5, ⟨t2, ht2⟩⟩ := add_atom_cases s a
    rw [runAtoms]
    rcases haa : add_atom s a with ⟨s2, ores⟩
    rw [haa] at h1 h2 ht h4 h5 ht2
    cases ores with
    | none =>
      simp only []
      exact ⟨h1, h2, ⟨t, ht, htf⟩, h4, h5, ⟨t2, ht2⟩⟩
    | some b =>
      simp only []
      obtain ⟨g1, g2, ⟨u, hu, huf⟩, g4, g5, ⟨u2, hu2⟩⟩ := ih s2
      refine ⟨g1.trans h1, fun x hx => g2 x (h2 x hx), ?_, fun q => g4 (h4 q),
        fun q n => g5 (h4 q) (h5 q n), ⟨t2 ++ u2, by rw [hu2, ht2, List.append_assoc]⟩⟩
      refine ⟨t ++ u, by rw [hu, ht, List.append_assoc], ?_⟩
      intro x hx
      rcases List.mem_append.1 hx with hx1 | hx2
      · exact htf x hx1
      · intro hmem
        exact huf x hx2 (h2 x hmem)

theorem runAtoms_sound_inv (l : List Input) :
    ∀ s, IdxSound s → InstSound s → ConstOK s →
      IdxSound (runAtoms s l).1 ∧ InstSound (runAtoms s l).1 ∧
      ConstOK (runAtoms s l).1 := by
  induction l with
  | nil => intro s h1 h2 h3; exact ⟨h1, h2, h3⟩
  | cons a rest ih =>
    intro s h1 h2 h3
    obtain ⟨g1, g2, g3⟩ := add_atom_sound_inv s a h1 h2 h3
    rw [runAtoms]
    rcases haa : add_atom s a with ⟨s2, ores⟩
    rw [haa] at g1 g2 g3
    cases ores with
    | none => simp only []; exact ⟨g1, g2, g3⟩
    | some b => simp only []; exact ih s2 g1 g2 g3

theorem zeroFold_spec (l : List Strm) :
    ∀ s : EState,
      (l.foldl (fun s st => if st.inputs = [] then (_add_instance s st []).1
          else s) s).streams = s.streams ∧
      (l.foldl (fun s st => if st.inputs = [] then (_add_instance s st []).1
          else s) s).atoms = s.atoms ∧
      (l.foldl (fun s st => if st.inputs = [] then (_add_instance s st []).1
          else s) s).atoms_from_domain = s.atoms_from_domain ∧
      (∀ x, x ∈ (l.foldl (fun s st => if st.inputs = [] then
          (_add_instance s st []).1 else s) s).stream_instances ↔
        (x ∈ s.stream_instances ∨
          ∃ st, st ∈ l ∧ st.inputs = [] ∧ x = (st.sid, []))) ∧
      (QI s → QI (l.foldl (fun s st => if st.inputs = [] then
          (_add_instance s st []).1 else s) s)) ∧
      (QI s → s.stream_queue.Nodup → (l.foldl (fun s st =>
          if st.inputs = [] then (_add_instance s st []).1 else s)
          s).stream_queue.Nodup) := by
  induction l with
  | nil =>
    intro s
    exact ⟨rfl, rfl, rfl, fun x => by simp, fun q => q, fun _ hn => hn⟩
  | cons st rest ih =>
    intro s
    rw [List.foldl_cons]
    by_cases hz : st.inputs = []
    · rw [if_pos hz]
      obtain ⟨g1, g2, g3, g4, g5, g6⟩ := ih (_add_instance s st []).1
      obtain ⟨f1, f2, f3⟩ := addInstance_fields s st []
      refine ⟨g1.trans f1, g2.trans f2, g3.trans f3, ?_, ?_, ?_⟩
      · intro x
        rw [g4 x, addInstance_inst_iff]
        constructor
        · rintro ((hx | hx) | ⟨st2, hst2, hz2, he⟩)
          · exact Or.inl hx
          · exact Or.inr ⟨st, List.mem_cons_self _ _, hz, hx⟩
          · exact Or.inr ⟨st2, List.mem_cons_of_mem _ hst2, hz2, he⟩
        · rintro (hx | ⟨st2, hst2, hz2, he⟩)
          · exact Or.inl (Or.inl hx)
          · rcases List.mem_cons.1 hst2 with rfl | hst3
            · exact Or.inl (Or.inr he)
            · exact Or.inr ⟨st2, hst3, hz2, he⟩
      · intro hq
        exact g5 (addInstance_QI s st [] hq)
      · intro hq hn
        exact g6 (addInstance_QI s st [] hq) (addInstance_nodup s st [] hq hn)
    · rw [if_neg hz]
      obtain ⟨g1, g2, g3, g4, g5, g6⟩ := ih s
      refine ⟨g1, g2, g3, ?_, g5, g6⟩
      intro x
      rw [g4 x]
      constructor
      · rintro (hx | ⟨st2, hst2, hz2, he⟩)
        · exact Or.inl hx
        · exact Or.inr ⟨st2, List.mem_cons_of_mem _ hst2, hz2, he⟩
      · rintro (hx | ⟨st2, hst2, hz2, he⟩)
        · exact Or.inl hx
        · rcases List.mem_cons.1 hst2 with rfl | hst3
          · exact absurd hz2 hz
          · exact Or.inr ⟨st2, hst3, hz2, he⟩

theorem initZero_spec (streams : List Strm) :
    (initZero streams).streams = streams ∧
    (initZero streams).atoms = [] ∧
    (initZero streams).atoms_from_domain = (fun _ => []) ∧
    (∀ x, x ∈ (initZero streams).stream_instances ↔ ZeroInst streams x) ∧
    QI (initZero streams) ∧
    (initZero streams).stream_queue.Nodup ∧
    (∀ x, x ∈ (initZero streams).stream_queue ↔ ZeroInst streams x) := by
  obtain ⟨g1, g2, g3, g4, g5, g6⟩ := zeroFold_spec streams (emptyState streams)
  have hQ0 : QI (emptyState streams) := by
    intro x
    simp [emptyState]
  have hinst : ∀ x, x ∈ (initZero streams).stream_instances ↔
      ZeroInst streams x := by
    intro x
    rw [show initZero streams = streams.foldl (fun s st =>
      if st.inputs = [] then (_add_instance s st []).1 else s)
      (emptyState streams) from rfl]
    rw [g4 x]
    constructor
    · rintro (hx | ⟨st2, hst2, hz2, he⟩)
      · exact absurd hx (List.not_mem_nil x)
      · exact ⟨st2, hst2, hz2, he⟩
    · rintro ⟨st2, hst2, hz2, he⟩
      exact Or.inr ⟨st2, hst2, hz2, he⟩
  refine ⟨g1, g2, g3, hinst, g5 hQ0, g6 hQ0 List.nodup_nil, ?_⟩
  intro x
  rw [show initZero streams = streams.foldl (fun s st =>
    if st.inputs = [] then (_add_instance s st []).1 else s)
    (emptyState streams) from rfl]
  rw [(g5 hQ0) x]
  exact hinst x

theorem countInst_append (l1 l2 : List Inst) (x : Inst) :
    countInst (l1 ++ l2) x = countInst l1 x + countInst l2 x := by
  simp [countInst, List.filter_append]

theorem countInst_eq_zero (l : List Inst) (x : Inst) (h : x ∉ l) :
    countInst l x = 0 := by
  rw [countInst, List.length_eq_zero, List.filter_eq_nil_iff]
  intro a ha
  simp only [decide_eq_true_eq]
  intro heq
  rw [heq] at ha
  exact h ha

theorem countInst_eq_one (l : List Inst) (x : Inst) (hn : l.Nodup)
    (hm : x ∈ l) : countInst l x = 1 := by
  induction l with
  | nil => exact absurd hm (List.not_mem_nil x)
  | cons a rest ih =>
    obtain ⟨hna, hnr⟩ := List.nodup_cons.1 hn
    rcases List.mem_cons.1 hm with rfl | hmr
    · rw [countInst, List.filter_cons_of_pos (by simp)]
      rw [List.length_cons]
      have hz : countInst rest x = 0 := countInst_eq_zero rest x hna
      rw [countInst] at hz
      rw [hz]
    · by_cases hax : a = x
      · rw [hax] at hna
        exact absurd hmr hna
      · rw [countInst, List.filter_cons_of_neg (by simp [hax])]
        exact ih hnr hmr

/-- C3: for a stream with inputs `[x, y]` and domain `[Pred(x), Pred2(x, y)]`
on a fresh engine, submitting `Pred(a)` then `Pred2(a, b)` enqueues the
instance bound to `(a, b)` exactly once, and submitting them in the reverse
order enqueues the same instance exactly once. -/
theorem claim_C3_no_missed_combinations :
    countInst (Instantiator.init
        [Input.atom ⟨"Pred", [⟨0⟩]⟩, Input.atom ⟨"Pred2", [⟨0⟩, ⟨1⟩]⟩]
        [⟨0, ["x", "y"], [⟨"Pred", [Arg.param "x"]⟩,
          ⟨"Pred2", [Arg.param "x", Arg.param "y"]⟩]⟩]).1.stream_queue
        (0, [⟨0⟩, ⟨1⟩]) = 1 ∧
    countInst (Instantiator.init
        [Input.atom ⟨"Pred2", [⟨0⟩, ⟨1⟩]⟩, Input.atom ⟨"Pred", [⟨0⟩]⟩]
        [⟨0, ["x", "y"], [⟨"Pred", [Arg.param "x"]⟩,
          ⟨"Pred2", [Arg.param "x", Arg.param "y"]⟩]⟩]).1.stream_queue
        (0, [⟨0⟩, ⟨1⟩]) = 1 := by
  constructor
  · decide
  · decide

/-- C5: on every engine built by `__init__` (and under any submissions), a
domain slot holding a literal constant indexes only heads that agree with the
constant at that position (`ConstOK`), and every recorded instance is a
zero-input instance or arises from a combination whose atom at every slot is a
known head agreeing with every literal constant of that slot's declared
fact. -/
theorem claim_C5_constant_enforcement (evaluations : List Input)
    (streams : List Strm) :
    ConstOK (Instantiator.init evaluations streams).1 ∧
    InstSound (Instantiator.init evaluations streams).1 ∧
    (∀ inst ∈ (Instantiator.init evaluations streams).1.stream_instances,
      ZeroInst streams inst ∨
      ∃ (st : Strm) (combo : List GAtom), st ∈ streams ∧
        combo.length = st.domain.length ∧
        (∀ (k : Nat) x df, combo[k]? = some x → st.domain[k]? = some df →
          x ∈ (Instantiator.init evaluations streams).1.atoms ∧
          ∀ (p : Nat) c, df.args[p]? = some (Arg.const c) →
            x.args[p]? = some c) ∧
        instFrom st combo = some inst) := by
  obtain ⟨z1, z2, z3, z4, z5, z6, z7⟩ := initZero_spec streams
  have hidx0 : IdxSound (initZero streams) := by
    intro i j st df _ _ x hx
    rw [z3] at hx
    exact absurd hx (List.not_mem_nil x)
  have hinst0 : InstSound (initZero streams) := by
    intro inst hins
    rw [z1]
    exact Or.inl ((z4 inst).1 hins)
  have hconst0 : ConstOK (initZero streams) := by
    intro i j p st df c _ _ _ x hx
    rw [z3] at hx
    exact absurd hx (List.not_mem_nil x)
  obtain ⟨h1, h2, h3⟩ := runAtoms_sound_inv evaluations (initZero streams)
    hidx0 hinst0 hconst0
  obtain ⟨hstr, _, _, _, _, _⟩ := runAtoms_cases evaluations (initZero streams)
  have hstr3 : (runAtoms (initZero streams) evaluations).1.streams = streams :=
    hstr.trans z1
  refine ⟨h3, h2, ?_⟩
  intro inst hins
  rcases h2 inst hins with hz | hd
  · rw [hstr3] at hz
    exact Or.inl hz
  · obtain ⟨st, combo, hst, hlen, hel, hif⟩ := hd
    rw [hstr3] at hst
    refine Or.inr ⟨st, combo, hst, hlen, ?_, hif⟩
    intro k x df hx hdf
    obtain ⟨hxa, hcp⟩ := hel k x df hx hdf
    exact ⟨hxa, compatB_const df x hcp⟩

/-- C10: every zero-input stream instance is enqueued during the zero-input
phase of construction, before any initial atom is processed, and the final
queue is that zero-input prefix followed only by instances that are not
zero-input instances: zero-input instances precede all fact-derived ones in
FIFO order. -/
theorem claim_C10_zero_input_first (evaluations : List Input)
    (streams : List Strm) :
    ∃ t, (Instantiator.init evaluations streams).1.stream_queue =
        (initZero streams).stream_queue ++ t ∧
      (∀ x, x ∈ (initZero streams).stream_queue ↔ ZeroInst streams x) ∧
      (∀ x ∈ t, ¬ ZeroInst streams x) := by
  obtain ⟨z1, z2, z3, z4, z5, z6, z7⟩ := initZero_spec streams
  obtain ⟨_, _, ⟨t, ht, htf⟩, _, _, _⟩ :=
    runAtoms_cases evaluations (initZero streams)
  refine ⟨t, ht, z7, ?_⟩
  intro x hx hz
  exact htf x hx ((z4 x).2 hz)

/-- C7: a stream declared with an empty `inputs` tuple has its instance
recorded and enqueued exactly once by construction, and it is still enqueued
exactly once after the initial evaluations — and any further sequence of
submissions — are processed. -/
theorem claim_C7_zero_input_once (evaluations : List Input)
    (streams : List Strm) (st : Strm) (hst : st ∈ streams)
    (hz : st.inputs = []) :
    (st.sid, ([] : List Obj)) ∈ (initZero streams).stream_instances ∧
    countInst (initZero streams).stream_queue (st.sid, []) = 1 ∧
    countInst (Instantiator.init evaluations streams).1.stream_queue
      (st.sid, []) = 1 ∧
    (∀ more : List Input,
      countInst (runAtoms (Instantiator.init evaluations streams).1
        more).1.stream_queue (st.sid, []) = 1) := by
  obtain ⟨z1, z2, z3, z4, z5, z6, z7⟩ := initZero_spec streams
  have hzin : ZeroInst streams (st.sid, []) := ⟨st, hst, hz, rfl⟩
  have hmemi : (st.sid, ([] : List Obj)) ∈
      (initZero streams).stream_instances := (z4 _).2 hzin
  have hmemq : (st.sid, ([] : List Obj)) ∈ (initZero streams).stream_queue :=
    (z7 _).2 hzin
  have hcount0 : countInst (initZero streams).stream_queue (st.sid, []) = 1 :=
    countInst_eq_one _ _ z6 hmemq
  obtain ⟨_, hmono, ⟨t, ht, htf⟩, _, _, _⟩ :=
    runAtoms_cases evaluations (initZero streams)
  have hcount1 : countInst
      (Instantiator.init evaluations streams).1.stream_queue
      (st.sid, []) = 1 := by
    rw [show (Instantiator.init evaluations streams) =
      runAtoms (initZero streams) evaluations from rfl]
    rw [ht, countInst_append, hcount0]
    rw [countInst_eq_zero t _ (fun hmem => htf _ hmem hmemi)]
  refine ⟨hmemi, hcount0, hcount1, ?_⟩
  intro more
  obtain ⟨_, _, ⟨u, hu, huf⟩, _, _, _⟩ :=
    runAtoms_cases more (Instantiator.init evaluations streams).1
  rw [hu, countInst_append, hcount1]
  rw [countInst_eq_zero u _ (fun hmem => huf _ hmem (hmono _ hmemi))]

/-- C7: witness instantiating the theorem at a concrete engine with one
zero-input stream and one submitted atom. -/
theorem claim_C7_witness :
    ((3 : Nat), ([] : List Obj)) ∈
      (initZero [⟨3, [], []⟩]).stream_instances ∧
    countInst (initZero [⟨3, [], []⟩]).stream_queue (3, []) = 1 ∧
    countInst (Instantiator.init [Input.atom ⟨"P", [⟨0⟩]⟩]
      [⟨3, [], []⟩]).1.stream_queue (3, []) = 1 ∧
    (∀ more : List Input,
      countInst (runAtoms (Instantiator.init [Input.atom ⟨"P", [⟨0⟩]⟩]
        [⟨3, [], []⟩]).1 more).1.stream_queue (3, []) = 1) :=
  claim_C7_zero_input_once [Input.atom ⟨"P", [⟨0⟩]⟩] [⟨3, [], []⟩]
    ⟨3, [], []⟩ (List.mem_singleton.2 rfl) rfl

theorem procSlots_raises (st : Strm) (i : Nat) (h : GAtom) :
    ∀ (dfs : List DFact) (j : Nat) (s : EState),
      (∃ df ∈ dfs, h.pred = df.pred ∧ h.args.length ≠ df.args.length) →
      (procSlots st i h s dfs j).2 = none := by
  intro dfs
  induction dfs with
  | nil =>
    intro j s hbad
    obtain ⟨df, hdf, _⟩ := hbad
    exact absurd hdf (List.not_mem_nil df)
  | cons df rest ih =>
    intro j s hbad
    rw [procSlots]
    obtain ⟨df2, hdf2, hp2, hl2⟩ := hbad
    rcases List.mem_cons.1 hdf2 with rfl | hdf3
    · rw [if_pos hp2]
      have hsz : safe_zip h.args df2.args = none := by
        rw [safe_zip, if_neg hl2]
      rw [hsz]
    · by_cases hpred : h.pred = df.pred
      · rw [if_pos hpred]
        cases hsz : safe_zip h.args df.args with
        | none => simp only [hsz]
        | some pairs =>
          simp only [hsz]
          cases hmis : constMismatch pairs with
          | true =>
            rw [if_pos rfl]
            exact ih (j+1) s ⟨df2, hdf3, hp2, hl2⟩
          | false =>
            rw [if_neg (by simp)]
            rcases hac : _add_combinations (slotState i h s j) st
                (slotValues st i h (slotState i h s j) j) with ⟨s2, ores⟩
            cases ores with
            | none => simp only []
            | some u =>
              simp only []
              exact ih (j+1) s2 ⟨df2, hdf3, hp2, hl2⟩
      · rw [if_neg hpred]
        exact ih (j+1) s ⟨df2, hdf3, hp2, hl2⟩

theorem procStreams_raises (h : GAtom) :
    ∀ (sts : List Strm) (i : Nat) (s : EState),
      (∃ st2 ∈ sts, ∃ df ∈ st2.domain, h.pred = df.pred ∧
        h.args.length ≠ df.args.length) →
      (procStreams h s sts i).2 = none := by
  intro sts
  induction sts with
  | nil =>
    intro i s hbad
    obtain ⟨st2, hst2, _⟩ := hbad
    exact absurd hst2 (List.not_mem_nil st2)
  | cons st rest ih =>
    intro i s hbad
    rw [procStreams]
    obtain ⟨st2, hst2, hdf⟩ := hbad
    rcases List.mem_cons.1 hst2 with rfl | hst3
    · have hps : (procSlots st2 i h s st2.domain 0).2 = none :=
        procSlots_raises st2 i h st2.domain 0 s hdf
      rcases hps2 : procSlots st2 i h s st2.domain 0 with ⟨s2, ores⟩
      rw [hps2] at hps
      simp only at hps
      rw [hps]
    · rcases hps2 : procSlots st i h s st.domain 0 with ⟨s2, ores⟩
      cases ores with
      | none => simp only []
      | some u =>
        simp only []
        exact ih (i+1) s2 ⟨st2, hst3, hdf⟩

/-- C6: counterexample to the claim as stated — a fully ground atom whose
predicate matches a declared domain fact with a different arity is not
silently rejected: its head is added to the known-head set and the call ends
in an assertion failure rather than returning false. -/
theorem claim_C6_counterexample :
    (add_atom (initZero [⟨0, ["x"], [⟨"P", [Arg.param "x"]⟩]⟩])
      (Input.atom ⟨"P", [⟨0⟩, ⟨1⟩]⟩)).2 = none ∧
    (⟨"P", [⟨0⟩, ⟨1⟩]⟩ : GAtom) ∈
      (add_atom (initZero [⟨0, ["x"], [⟨"P", [Arg.param "x"]⟩]⟩])
        (Input.atom ⟨"P", [⟨0⟩, ⟨1⟩]⟩)).1.atoms := by
  constructor
  · decide
  · decide

/-- C6: (amended) an input that is not a fully ground atom is rejected without
mutating state, returning false and raising nothing; but a ground atom whose
predicate matches some declared domain fact with a different arity is not
silently rejected — its head is first added to the known-head set and the
per-slot `safe_zip` assertion then fails (an exception escapes instead of a
false return). -/
theorem claim_C6_amended :
    (∀ s : EState, add_atom s Input.nonAtom = (s, some false)) ∧
    (∀ (s : EState) (a : GAtom) (i j : Nat) (st : Strm) (df : DFact),
      a ∉ s.atoms → s.streams[i]? = some st → st.domain[j]? = some df →
      a.pred = df.pred → a.args.length ≠ df.args.length →
      (add_atom s (Input.atom a)).2 = none ∧
      a ∈ (add_atom s (Input.atom a)).1.atoms) := by
  constructor
  · intro s
    rfl
  · intro s a i j st df hmem hst hdf hp hl
    rw [add_atom, if_neg hmem]
    dsimp only
    obtain ⟨hS, _, _, _, _⟩ := procStreams_sound a
      ({ s with atoms := s.atoms ++ [a] }).streams 0
      { s with atoms := s.atoms ++ [a] } rfl
    have hraise : (procStreams a { s with atoms := s.atoms ++ [a] }
        ({ s with atoms := s.atoms ++ [a] }).streams 0).2 = none := by
      refine procStreams_raises a _ 0 _ ⟨st, ?_, df, List.getElem?_mem hdf,
        hp, hl⟩
      exact List.getElem?_mem hst
    rcases hpr : procStreams a { s with atoms := s.atoms ++ [a] }
        ({ s with atoms := s.atoms ++ [a] }).streams 0 with ⟨s2, ores⟩
    rw [hpr] at hS hraise
    simp only at hraise
    rw [hpr, hraise]
    refine ⟨rfl, ?_⟩
    have : s2.atoms = s.atoms ++ [a] := by
      rw [hraise] at hS
      exact hS.atoms_eq
    simp only [this]
    exact List.mem_append.2 (Or.inr (List.mem_singleton.2 rfl))

/-- C6: witness instantiating the amended theorem: the non-atom branch at a
concrete state and the arity-mismatch branch at a concrete engine. -/
theorem claim_C6_witness :
    add_atom (initZero [⟨0, ["x"], [⟨"P", [Arg.param "x"]⟩]⟩])
      Input.nonAtom = (initZero [⟨0, ["x"], [⟨"P", [Arg.param "x"]⟩]⟩],
        some false) ∧
    ((add_atom (initZero [⟨0, ["x"], [⟨"P", [Arg.param "x"]⟩]⟩])
      (Input.atom ⟨"P", [⟨2⟩, ⟨3⟩]⟩)).2 = none ∧
    (⟨"P", [⟨2⟩, ⟨3⟩]⟩ : GAtom) ∈
      (add_atom (initZero [⟨0, ["x"], [⟨"P", [Arg.param "x"]⟩]⟩])
        (Input.atom ⟨"P", [⟨2⟩, ⟨3⟩]⟩)).1.atoms) :=
  ⟨claim_C6_amended.1 _,
   claim_C6_amended.2 (initZero [⟨0, ["x"], [⟨"P", [Arg.param "x"]⟩]⟩])
     ⟨"P", [⟨2⟩, ⟨3⟩]⟩ 0 0 ⟨0, ["x"], [⟨"P", [Arg.param "x"]⟩]⟩
     ⟨"P", [Arg.param "x"]⟩ (by decide) (by decide) (by decide) rfl
     (by decide)⟩

theorem procSlots_noraise (st : Strm) (i : Nat) (h : GAtom)
    (hwfst : ∀ p ∈ st.inputs, ∃ df ∈ st.domain, Arg.param p ∈ df.args)
    (hwfa : ∀ df ∈ st.domain, h.pred = df.pred →
      h.args.length = df.args.length) :
    ∀ (dfs : List DFact) (j : Nat) (s : EState),
      st.domain.drop j = dfs →
      (∀ (k : Nat) df, st.domain[k]? = some df →
        ∀ x ∈ s.atoms_from_domain (i, k), x.pred = df.pred ∧
          x.args.length = df.args.length) →
      (procSlots st i h s dfs j).2 = some () := by
  intro dfs
  induction dfs with
  | nil =>
    intro j s _ _
    rfl
  | cons df rest ih =>
    intro j s hdrop hidxw
    obtain ⟨hdj, hdrop2⟩ := drop_eq_cons_getElem? hdrop
    rw [procSlots]
    by_cases hpred : h.pred = df.pred
    · rw [if_pos hpred]
      have hlen : h.args.length = df.args.length :=
        hwfa df (List.getElem?_mem hdj) hpred
      have hsz : safe_zip h.args df.args = some (h.args.zip df.args) := by
        rw [safe_zip, if_pos hlen]
      simp only [hsz]
      cases hmis : constMismatch (h.args.zip df.args) with
      | true =>
        rw [if_pos rfl]
        exact ih (j+1) s hdrop2 hidxw
      | false =>
        rw [if_neg (by simp)]
        have hidxw1 : ∀ (k : Nat) df2, st.domain[k]? = some df2 →
            ∀ x ∈ (slotState i h s j).atoms_from_domain (i, k),
              x.pred = df2.pred ∧ x.args.length = df2.args.length := by
          intro k df2 hdf2 x hx
          rw [slotState_idx] at hx
          by_cases hkey : ((i, k) : Nat × Nat) = (i, j)
          · rw [if_pos hkey] at hx
            have hkj : k = j := by
              obtain ⟨_, h2⟩ := Prod.mk.injEq .. ▸ hkey
              exact h2
            rw [hkj] at hdf2
            rcases List.mem_append.1 hx with hx1 | hx1
            · exact hidxw j df2 hdf2 x hx1
            · rw [List.mem_singleton] at hx1
              have hdfeq : df2 = df := by
                rw [hdj] at hdf2
                exact (Option.some.inj hdf2).symm
              rw [hx1, hdfeq]
              exact ⟨hpred, hlen⟩
          · rw [if_neg hkey] at hx
            exact hidxw k df2 hdf2 x hx
        have hshape : ∀ combo ∈
            listProd (slotValues st i h (slotState i h s j) j),
            combo.length = st.domain.length ∧
            ∀ (k : Nat) x df2, combo[k]? = some x →
              st.domain[k]? = some df2 →
              x.pred = df2.pred ∧ x.args.length = df2.args.length := by
          intro combo hcm
          obtain ⟨hclen, hcpt⟩ := (mem_listProd _ combo).1 hcm
          rw [slotValues_length] at hclen
          refine ⟨hclen, ?_⟩
          intro k x df2 hx hdf2
          obtain ⟨hklt, _⟩ := List.getElem?_eq_some.1 hdf2
          have hval := slotValues_getElem? st i h (slotState i h s j) j k hklt
          have hxv := hcpt k x _ hx hval
          by_cases hjk : j = k
          · rw [if_neg (by simp [hjk])] at hxv
            rw [List.mem_singleton] at hxv
            have hdfeq : df2 = df := by
              rw [← hjk] at hdf2
              rw [hdj] at hdf2
              exact (Option.some.inj hdf2).symm
            rw [hxv, hdfeq]
            exact ⟨hpred, hlen⟩
          · rw [if_pos hjk] at hxv
            exact hidxw1 k df2 hdf2 x hxv
        have hacr := addCombos_noraise st hwfst _ hshape (slotState i h s j)
        rcases hac : _add_combinations (slotState i h s j) st
            (slotValues st i h (slotState i h s j) j) with ⟨s2, ores⟩
        have hac2 : addCombos st (slotState i h s j)
            (listProd (slotValues st i h (slotState i h s j) j)) =
            (s2, ores) := hac
        rw [hac2] at hacr
        simp only at hacr
        rw [hacr]
        simp only []
        have hidx2 : (addCombos st (slotState i h s j)
            (listProd (slotValues st i h (slotState i h s j) j))).1.atoms_from_domain =
            (slotState i h s j).atoms_from_domain :=
          (addCombos_steps st _ _).2
        rw [hac2] at hidx2
        simp only at hidx2
        refine ih (j+1) s2 hdrop2 ?_
        intro k df2 hdf2 x hx
        rw [hidx2] at hx
        exact hidxw1 k df2 hdf2 x hx
    · rw [if_neg hpred]
      exact ih (j+1) s hdrop2 hidxw

theorem procStreams_noraise (h : GAtom) :
    ∀ (sts : List Strm) (i : Nat) (s : EState),
      s.streams.drop i = sts →
      WFstreams s.streams → WFatom s.streams h → WFidx s →
      (procStreams h s sts i).2 = some () := by
  intro sts
  induction sts with
  | nil =>
    intro i s _ _ _ _
    rfl
  | cons st rest ih =>
    intro i s hdrop hwfs hwfa hwidx
    obtain ⟨hsi, hdrop2⟩ := drop_eq_cons_getElem? hdrop
    rw [procStreams]
    have hstmem : st ∈ s.streams := List.getElem?_mem hsi
    have hps := procSlots_noraise st i h (hwfs st hstmem)
      (fun df hdf hp => hwfa st hstmem df hdf hp) st.domain 0 s rfl
      (fun k df hdf x hx => hwidx i k st df hsi hdf x hx)
    obtain ⟨hS, _, _, hIdx, _⟩ := procSlots_sound st i h st.domain 0 s rfl
    rcases hps2 : procSlots st i h s st.domain 0 with ⟨s2, ores⟩
    rw [hps2] at hps hS hIdx
    simp only at hps
    rw [hps]
    simp only []
    rw [hps] at hS hIdx
    refine ih (i+1) s2 (by rw [hS.streams_eq]; exact hdrop2) ?_ ?_ ?_
    · rw [hS.streams_eq]
      exact hwfs
    · rw [hS.streams_eq]
      exact hwfa
    · intro i2 j2 st2 df2 hst2 hdf2 x hx
      rw [hS.streams_eq] at hst2
      rcases hIdx i2 j2 with h1 | ⟨he, _, df3, hdf3, hcp3, happ⟩
      · rw [h1] at hx
        exact hwidx i2 j2 st2 df2 hst2 hdf2 x hx
      · rw [happ] at hx
        rcases List.mem_append.1 hx with hx1 | hx1
        · exact hwidx i2 j2 st2 df2 hst2 hdf2 x hx1
        · rw [List.mem_singleton] at hx1
          have hsteq : st2 = st := by
            rw [he] at hst2
            rw [hsi] at hst2
            exact (Option.some.inj hst2).symm
          have hdfeq : df2 = df3 := by
            rw [hsteq] at hdf2
            rw [hdf2] at hdf3
            exact Option.some.inj hdf3
          rw [hx1, hdfeq]
          exact compatB_shape df3 h hcp3

theorem add_atom_mem_head (s : EState) (a : GAtom) :
    a ∈ (add_atom s (Input.atom a)).1.atoms := by
  by_cases hmem : a ∈ s.atoms
  · rw [add_atom, if_pos hmem]
    exact hmem
  · rw [add_atom, if_neg hmem]
    dsimp only
    obtain ⟨hS, _, _, _, _⟩ := procStreams_sound a
      ({ s with atoms := s.atoms ++ [a] }).streams 0
      { s with atoms := s.atoms ++ [a] } rfl
    rcases hpr : procStreams a { s with atoms := s.atoms ++ [a] }
        ({ s with atoms := s.atoms ++ [a] }).streams 0 with ⟨s2, ores⟩
    rw [hpr] at hS
    rw [hpr]
    have h2 : s2.atoms = s.atoms ++ [a] := hS.atoms_eq
    cases ores with
    | none =>
      simp only []
      rw [h2]
      exact List.mem_append.2 (Or.inr (List.mem_singleton.2 rfl))
    | some u =>
      simp only []
      rw [h2]
      exact List.mem_append.2 (Or.inr (List.mem_singleton.2 rfl))

theorem add_atom_true (s : EState) (a : GAtom) (hmem : a ∉ s.atoms)
    (hwfs : WFstreams s.streams) (hwfa : WFatom s.streams a)
    (hwidx : WFidx s) :
    (add_atom s (Input.atom a)).2 = some true := by
  rw [add_atom, if_neg hmem]
  dsimp only
  have hnr := procStreams_noraise a ({ s with atoms := s.atoms ++ [a] }).streams
    0 { s with atoms := s.atoms ++ [a] } rfl hwfs hwfa
    (fun i j st df hst hdf x hx => hwidx i j st df hst hdf x hx)
  rcases hpr : procStreams a { s with atoms := s.atoms ++ [a] }
      ({ s with atoms := s.atoms ++ [a] }).streams 0 with ⟨s2, ores⟩
  rw [hpr] at hnr
  simp only at hnr
  rw [hpr, hnr]

/-- C2: counterexample to the claim as stated — for an engine whose stream
declares `P` with arity 1, submitting the new ground atom `P(o1, o2)` (arity
2) does not return true on its first call: the per-slot assertion fails
instead. -/
theorem claim_C2_counterexample :
    ((⟨"P", [⟨5⟩, ⟨6⟩]⟩ : GAtom) ∉
      (initZero [⟨0, ["x"], [⟨"P", [Arg.param "x"]⟩]⟩]).atoms) ∧
    (add_atom (initZero [⟨0, ["x"], [⟨"P", [Arg.param "x"]⟩]⟩])
      (Input.atom ⟨"P", [⟨5⟩, ⟨6⟩]⟩)).2 ≠ some true := by
  constructor
  · decide
  · decide

/-- C2: (amended) submitting the same ground atom twice is idempotent: for
every engine state and ground atom the state after two `add_atom` calls is the
state after one, any call whose head is already known returns false and leaves
the state untouched, and — provided the atom is arity-compatible with the
declared domain facts it predicate-matches, the index lists are well-formed,
and every stream's inputs appear among its domain parameters — the first call
on a new head returns true. -/
theorem claim_C2_amended :
    (∀ (s : EState) (a : GAtom),
      add_atom (add_atom s (Input.atom a)).1 (Input.atom a) =
        ((add_atom s (Input.atom a)).1, some false)) ∧
    (∀ (s : EState) (a : GAtom), a ∈ s.atoms →
      add_atom s (Input.atom a) = (s, some false)) ∧
    (∀ (s : EState) (a : GAtom), a ∉ s.atoms →
      WFstreams s.streams → WFatom s.streams a → WFidx s →
      (add_atom s (Input.atom a)).2 = some true) := by
  refine ⟨?_, ?_, ?_⟩
  · intro s a
    rw [add_atom, if_pos (add_atom_mem_head s a)]
  · intro s a hmem
    rw [add_atom, if_pos hmem]
  · intro s a hmem hwfs hwfa hwidx
    exact add_atom_true s a hmem hwfs hwfa hwidx

/-- C2: witness instantiating all three parts at a concrete engine. -/
theorem claim_C2_witness :
    (add_atom (add_atom (initZero [⟨0, ["x"], [⟨"P", [Arg.param "x"]⟩]⟩])
        (Input.atom ⟨"P", [⟨5⟩]⟩)).1 (Input.atom ⟨"P", [⟨5⟩]⟩) =
      ((add_atom (initZero [⟨0, ["x"], [⟨"P", [Arg.param "x"]⟩]⟩])
        (Input.atom ⟨"P", [⟨5⟩]⟩)).1, some false)) ∧
    ((add_atom (initZero [⟨0, ["x"], [⟨"P", [Arg.param "x"]⟩]⟩])
      (Input.atom ⟨"P", [⟨5⟩]⟩)).2 = some true) :=
  ⟨claim_C2_amended.1 (initZero [⟨0, ["x"], [⟨"P", [Arg.param "x"]⟩]⟩])
      ⟨"P", [⟨5⟩]⟩,
   claim_C2_amended.2.2 (initZero [⟨0, ["x"], [⟨"P", [Arg.param "x"]⟩]⟩])
      ⟨"P", [⟨5⟩]⟩ (by decide) (by unfold WFstreams; decide)
      (by unfold WFatom; decide)
      (fun i j st df _ _ x hx => absurd hx (List.not_mem_nil x))⟩

theorem procSlots_WFidx (st : Strm) (i : Nat) (h : GAtom) (s : EState)
    (hsi : s.streams[i]? = some st) (hwidx : WFidx s) :
    WFidx (procSlots st i h s st.domain 0).1 := by
  obtain ⟨hS, _, _, hIdx, _⟩ := procSlots_sound st i h st.domain 0 s rfl
  intro i2 j2 st2 df2 hst2 hdf2 x hx
  rw [hS.streams_eq] at hst2
  rcases hIdx i2 j2 with h1 | ⟨he, _, df3, hdf3, hcp3, happ⟩
  · rw [h1] at hx
    exact hwidx i2 j2 st2 df2 hst2 hdf2 x hx
  · rw [happ] at hx
    rcases List.mem_append.1 hx with hx1 | hx1
    · exact hwidx i2 j2 st2 df2 hst2 hdf2 x hx1
    · rw [List.mem_singleton] at hx1
      have hsteq : st2 = st := by
        rw [he] at hst2
        rw [hsi] at hst2
        exact (Option.some.inj hst2).symm
      have hdfeq : df2 = df3 := by
        rw [hsteq] at hdf2
        rw [hdf2] at hdf3
        exact Option.some.inj hdf3
      rw [hx1, hdfeq]
      exact compatB_shape df3 h hcp3

theorem procSlots_appends (st : Strm) (i : Nat) (h : GAtom) :
    ∀ (dfs : List DFact) (j : Nat) (s : EState),
      st.domain.drop j = dfs →
      (procSlots st i h s dfs j).2 = some () →
      ∀ (k : Nat) df, j ≤ k → st.domain[k]? = some df →
        compatB df h = true →
        h ∈ (procSlots st i h s dfs j).1.atoms_from_domain (i, k) := by
  intro dfs
  induction dfs with
  | nil =>
    intro j s hdrop _ k df hjk hdk hcp
    exfalso
    obtain ⟨hklt, _⟩ := List.getElem?_eq_some.1 hdk
    have hle : st.domain.length ≤ j := by
      rw [← List.drop_eq_nil_iff]
      exact hdrop
    exact Nat.not_lt.2 (Nat.le_trans hle hjk) hklt
  | cons df0 rest ih =>
    intro j s hdrop hok k df hjk hdk hcp
    obtain ⟨hdj, hdrop2⟩ := drop_eq_cons_getElem? hdrop
    rw [procSlots] at hok ⊢
    by_cases hpred : h.pred = df0.pred
    · rw [if_pos hpred] at hok ⊢
      cases hsz : safe_zip h.args df0.args with
      | none =>
        rw [hsz] at hok
        exact absurd hok (by simp)
      | some pairs =>
        obtain ⟨hlen0, rfl⟩ := safe_zip_eq_some hsz
        simp only [hsz] at hok ⊢
        cases hmis : constMismatch (h.args.zip df0.args) with
        | true =>
          rw [hmis, if_pos rfl] at hok
          rw [if_pos rfl]
          rcases Nat.lt_or_ge j k with hjk2 | hjk2
          · exact ih (j+1) s hdrop2 hok k df hjk2 hdk hcp
          · exfalso
            obtain rfl : j = k := Nat.le_antisymm hjk hjk2
            have hdfeq : df = df0 := by
              rw [hdj] at hdk
              exact (Option.some.inj hdk).symm
            rw [hdfeq] at hcp
            obtain ⟨_, _, hmis2⟩ := (compatB_iff df0 h).1 hcp
            rw [hmis] at hmis2
            exact absurd hmis2 (by simp)
        | false =>
          rw [hmis, if_neg (by simp)] at hok
          rw [if_neg (by simp)]
          rcases hac : _add_combinations (slotState i h s j) st
              (slotValues st i h (slotState i h s j) j) with ⟨s2, ores⟩
          cases ores with
          | none =>
            rw [hac] at hok
            exact absurd hok (by simp)
          | some u =>
            rw [hac] at hok
            simp only at hok
            simp only []
            rcases Nat.lt_or_ge j k with hjk2 | hjk2
            · exact ih (j+1) s2 hdrop2 hok k df hjk2 hdk hcp
            · obtain rfl : j = k := Nat.le_antisymm hjk hjk2
              -- h was appended at (i, j) in slotState; it persists
              have hmem1 : h ∈ (slotState i h s j).atoms_from_domain (i, j) := by
                rw [slotState_idx, if_pos rfl]
                exact List.mem_append.2 (Or.inr (List.mem_singleton.2 rfl))
              have hidx2 : s2.atoms_from_domain = (slotState i h s j).atoms_from_domain := by
                have := (addCombos_steps st
                  (listProd (slotValues st i h (slotState i h s j) j))
                  (slotState i h s j)).2
                have hac2 : addCombos st (slotState i h s j)
                    (listProd (slotValues st i h (slotState i h s j) j)) =
                    (s2, some u) := hac
                rw [hac2] at this
                exact this
              obtain ⟨_, _, _, hIdx, _⟩ :=
                procSlots_sound st i h rest (j+1) s2 hdrop2
              rcases hIdx i j with h1 | ⟨_, _, _, _, _, happ⟩
              · rw [h1, hidx2]
                exact hmem1
              · rw [happ, hidx2]
                exact List.mem_append.2 (Or.inl hmem1)
    · rw [if_neg hpred] at hok ⊢
      rcases Nat.lt_or_ge j k with hjk2 | hjk2
      · exact ih (j+1) s hdrop2 hok k df hjk2 hdk hcp
      · exfalso
        obtain rfl : j = k := Nat.le_antisymm hjk hjk2
        have hdfeq : df = df0 := by
          rw [hdj] at hdk
          exact (Option.some.inj hdk).symm
        obtain ⟨hp, _⟩ := compatB_shape df h hcp
        rw [hdfeq] at hp
        exact hpred hp

theorem procStreams_appends (h : GAtom) :
    ∀ (sts : List Strm) (i : Nat) (s : EState),
      s.streams.drop i = sts →
      (procStreams h s sts i).2 = some () →
      ∀ (i2 : Nat) st df (j : Nat), i ≤ i2 → s.streams[i2]? = some st →
        st.domain[j]? = some df → compatB df h = true →
        h ∈ (procStreams h s sts i).1.atoms_from_domain (i2, j) := by
  intro sts
  induction sts with
  | nil =>
    intro i s hdrop _ i2 st df j hii2 hst hdf hcp
    exfalso
    obtain ⟨hlt, _⟩ := List.getElem?_eq_some.1 hst
    have hle : s.streams.length ≤ i := by
      rw [← List.drop_eq_nil_iff]
      exact hdrop
    exact Nat.not_lt.2 (Nat.le_trans hle hii2) hlt
  | cons st0 rest ih =>
    intro i s hdrop hok i2 st df j hii2 hst hdf hcp
    obtain ⟨hsi, hdrop2⟩ := drop_eq_cons_getElem? hdrop
    rw [procStreams] at hok ⊢
    rcases hps : procSlots st0 i h s st0.domain 0 with ⟨s2, ores⟩
    rw [hps] at hok
    obtain ⟨hS, _, _, hIdx, _⟩ := procSlots_sound st0 i h st0.domain 0 s rfl
    rw [hps] at hS hIdx
    cases ores with
    | none =>
      exact absurd hok (by simp)
    | some u =>
      simp only at hok
      simp only []
      rcases Nat.lt_or_ge i i2 with hii3 | hii3
      · -- the target stream comes later; recurse
        refine ih (i+1) s2 ?_ hok i2 st df j hii3 ?_ hdf hcp
        · rw [hS.streams_eq]
          exact hdrop2
        · rw [hS.streams_eq]
          exact hst
      · obtain rfl : i = i2 := Nat.le_antisymm hii2 hii3
        have hsteq : st = st0 := by
          rw [hsi] at hst
          exact (Option.some.inj hst).symm
        have hok2 : (procSlots st0 i h s st0.domain 0).2 = some () := by
          rw [hps]
        have hdf0 : st0.domain[j]? = some df := by
          rw [← hsteq]
          exact hdf
        have hmem1 : h ∈ s2.atoms_from_domain (i, j) := by
          have hap := procSlots_appends st0 i h st0.domain 0 s rfl hok2 j df
            (Nat.zero_le j) hdf0 hcp
          rw [hps] at hap
          exact hap
        obtain ⟨_, _, _, hIdx2, _⟩ := procStreams_sound h rest (i+1) s2
          (by rw [hS.streams_eq]; exact hdrop2)
        rcases hIdx2 i j with h1 | ⟨_, st2, df2, hst2, hdf2, hcp2, happ⟩
        · rw [h1]
          exact hmem1
        · rw [happ]
          exact List.mem_append.2 (Or.inl hmem1)

theorem procSlots_complete (st : Strm) (i : Nat) (h : GAtom) (hA : List GAtom)
    (hwfst : ∀ p ∈ st.inputs, ∃ df ∈ st.domain, Arg.param p ∈ df.args)
    (hwfa : ∀ df ∈ st.domain, h.pred = df.pred →
      h.args.length = df.args.length) :
    ∀ (dfs : List DFact) (j : Nat) (s : EState),
      st.domain.drop j = dfs →
      (∀ (k : Nat) df, st.domain[k]? = some df →
        ∀ x ∈ s.atoms_from_domain (i, k), x.pred = df.pred ∧
          x.args.length = df.args.length) →
      (∀ (k : Nat) df, st.domain[k]? = some df → ∀ x ∈ hA,
        compatB df x = true → x ∈ s.atoms_from_domain (i, k)) →
      (∀ (k : Nat), k < j → ∀ df, st.domain[k]? = some df →
        compatB df h = true → h ∈ s.atoms_from_domain (i, k)) →
      ∀ (combo : List GAtom) (inst : Inst) (jstar : Nat),
        combo.length = st.domain.length →
        (∀ (k : Nat) x df, combo[k]? = some x → st.domain[k]? = some df →
          (x ∈ hA ∨ x = h) ∧ compatB df x = true) →
        j ≤ jstar → combo[jstar]? = some h →
        (∀ (k : Nat), jstar < k → combo[k]? ≠ some h) →
        instFrom st combo = some inst →
        inst ∈ (procSlots st i h s dfs j).1.stream_instances := by
  intro dfs
  induction dfs with
  | nil =>
    intro j s hdrop _ _ _ combo inst jstar hclen hcel hjle hjh hjmax hif
    exfalso
    obtain ⟨hjlt, _⟩ := List.getElem?_eq_some.1 hjh
    rw [hclen] at hjlt
    have hle : st.domain.length ≤ j := by
      rw [← List.drop_eq_nil_iff]
      exact hdrop
    exact Nat.not_lt.2 (Nat.le_trans hle hjle) hjlt
  | cons df0 rest ih =>
    intro j s hdrop hidxw hlow hhin combo inst jstar hclen hcel hjle hjh hjmax hif
    obtain ⟨hdj, hdrop2⟩ := drop_eq_cons_getElem? hdrop
    rw [procSlots]
    by_cases hpred : h.pred = df0.pred
    · rw [if_pos hpred]
      have hlen : h.args.length = df0.args.length :=
        hwfa df0 (List.getElem?_mem hdj) hpred
      have hsz : safe_zip h.args df0.args = some (h.args.zip df0.args) := by
        rw [safe_zip, if_pos hlen]
      simp only [hsz]
      cases hmis : constMismatch (h.args.zip df0.args) with
      | true =>
        rw [if_pos rfl]
        have hjne : j ≠ jstar := by
          intro hjj
          rw [← hjj] at hjh
          obtain ⟨_, hcp⟩ := hcel j h df0 hjh hdj
          obtain ⟨_, _, hmis2⟩ := (compatB_iff df0 h).1 hcp
          rw [hmis] at hmis2
          exact absurd hmis2 (by simp)
        refine ih (j+1) s hdrop2 hidxw hlow ?_ combo inst jstar hclen hcel
          (Nat.lt_of_le_of_ne hjle hjne) hjh hjmax hif
        intro k hk df hdf hcp
        rcases Nat.lt_or_ge k j with hkj | hkj
        · exact hhin k hkj df hdf hcp
        · exfalso
          obtain rfl : k = j := Nat.le_antisymm (Nat.lt_succ_iff.1 hk) hkj
          have hdfeq : df = df0 := by
            rw [hdj] at hdf
            exact (Option.some.inj hdf).symm
          rw [hdfeq] at hcp
          obtain ⟨_, _, hmis2⟩ := (compatB_iff df0 h).1 hcp
          rw [hmis] at hmis2
          exact absurd hmis2 (by simp)
      | false =>
        rw [if_neg (by simp)]
        have hcompat0 : compatB df0 h = true :=
          compatB_of_guards df0 h hpred hlen hmis
        have hidxw1 : ∀ (k : Nat) df2, st.domain[k]? = some df2 →
            ∀ x ∈ (slotState i h s j).atoms_from_domain (i, k),
              x.pred = df2.pred ∧ x.args.length = df2.args.length := by
          intro k df2 hdf2 x hx
          rw [slotState_idx] at hx
          by_cases hkey : ((i, k) : Nat × Nat) = (i, j)
          · rw [if_pos hkey] at hx
            have hkj : k = j := by
              obtain ⟨_, h2⟩ := Prod.mk.injEq .. ▸ hkey
              exact h2
            rw [hkj] at hdf2
            rcases List.mem_append.1 hx with hx1 | hx1
            · exact hidxw j df2 hdf2 x hx1
            · rw [List.mem_singleton] at hx1
              have hdfeq : df2 = df0 := by
                rw [hdj] at hdf2
                exact (Option.some.inj hdf2).symm
              rw [hx1, hdfeq]
              exact ⟨hpred, hlen⟩
          · rw [if_neg hkey] at hx
            exact hidxw k df2 hdf2 x hx
        have hshape : ∀ cmb ∈
            listProd (slotValues st i h (slotState i h s j) j),
            cmb.length = st.domain.length ∧
            ∀ (k : Nat) x df2, cmb[k]? = some x →
              st.domain[k]? = some df2 →
              x.pred = df2.pred ∧ x.args.length = df2.args.length := by
          intro cmb hcm
          obtain ⟨hclen2, hcpt⟩ := (mem_listProd _ cmb).1 hcm
          rw [slotValues_length] at hclen2
          refine ⟨hclen2, ?_⟩
          intro k x df2 hx hdf2
          obtain ⟨hklt, _⟩ := List.getElem?_eq_some.1 hdf2
          have hval := slotValues_getElem? st i h (slotState i h s j) j k hklt
          have hxv := hcpt k x _ hx hval
          by_cases hjk : j = k
          · rw [if_neg (by simp [hjk])] at hxv
            rw [List.mem_singleton] at hxv
            have hdfeq : df2 = df0 := by
              rw [← hjk] at hdf2
              rw [hdj] at hdf2
              exact (Option.some.inj hdf2).symm
            rw [hxv, hdfeq]
            exact ⟨hpred, hlen⟩
          · rw [if_pos hjk] at hxv
            exact hidxw1 k df2 hdf2 x hxv
        have hacr := addCombos_noraise st hwfst _ hshape (slotState i h s j)
        rcases hac : _add_combinations (slotState i h s j) st
            (slotValues st i h (slotState i h s j) j) with ⟨s2, ores⟩
        have hac2 : addCombos st (slotState i h s j)
            (listProd (slotValues st i h (slotState i h s j) j)) =
            (s2, ores) := hac
        rw [hac2] at hacr
        simp only at hacr
        rw [hacr]
        simp only []
        have hidx2 : s2.atoms_from_domain =
            (slotState i h s j).atoms_from_domain := by
          have hp2 := (addCombos_steps st
            (listProd (slotValues st i h (slotState i h s j) j))
            (slotState i h s j)).2
          rw [hac2] at hp2
          exact hp2
        have hidxlift : ∀ (k : Nat), k ≠ j →
            s2.atoms_from_domain (i, k) = s.atoms_from_domain (i, k) := by
          intro k hk
          rw [hidx2, slotState_idx]
          rw [if_neg (show ¬((i, k) : Nat × Nat) = (i, j) by
            simp only [Prod.mk.injEq, true_and]
            exact hk)]
        have hidxj : s2.atoms_from_domain (i, j) =
            s.atoms_from_domain (i, j) ++ [h] := by
          rw [hidx2, slotState_idx, if_pos rfl]
        rcases Nat.lt_or_ge j jstar with hjlt | hjge
        · refine ih (j+1) s2 hdrop2 ?_ ?_ ?_ combo inst jstar hclen hcel
            hjlt hjh hjmax hif
          · intro k df2 hdf2 x hx
            rw [hidx2] at hx
            exact hidxw1 k df2 hdf2 x hx
          · intro k df2 hdf2 x hxA hcp
            by_cases hkj : k = j
            · rw [hkj, hidxj]
              rw [hkj] at hdf2
              exact List.mem_append.2 (Or.inl (hlow j df2 hdf2 x hxA hcp))
            · rw [hidxlift k hkj]
              exact hlow k df2 hdf2 x hxA hcp
          · intro k hk df2 hdf2 hcp
            rcases Nat.lt_or_ge k j with hkj | hkj
            · rw [hidxlift k (Nat.ne_of_lt hkj)]
              exact hhin k hkj df2 hdf2 hcp
            · obtain rfl : k = j := Nat.le_antisymm (Nat.lt_succ_iff.1 hk) hkj
              rw [hidxj]
              exact List.mem_append.2 (Or.inr (List.mem_singleton.2 rfl))
        · obtain rfl : j = jstar := Nat.le_antisymm hjle hjge
          have hcm : combo ∈
              listProd (slotValues st i h (slotState i h s j) j) := by
            refine (mem_listProd _ combo).2 ⟨?_, ?_⟩
            · rw [slotValues_length]
              exact hclen
            · intro k y lst hy hlst
              obtain ⟨hklt0, _⟩ := List.getElem?_eq_some.1 hy
              rw [hclen] at hklt0
              have hval := slotValues_getElem? st i h (slotState i h s j) j
                k hklt0
              rw [hval] at hlst
              have hlst2 := Option.some.inj hlst
              by_cases hjk : j = k
              · rw [← hlst2, if_neg (by simp [hjk])]
                rw [← hjk] at hy
                rw [hjh] at hy
                rw [List.mem_singleton]
                exact (Option.some.inj hy).symm
              · rw [← hlst2, if_pos hjk]
                have hdfk : ∃ df2, st.domain[k]? = some df2 := by
                  rw [← hclen] at hklt0
                  rw [hclen] at hklt0
                  exact ⟨st.domain[k], List.getElem?_eq_getElem hklt0⟩
                obtain ⟨df2, hdf2⟩ := hdfk
                obtain ⟨hyA, hycp⟩ := hcel k y df2 hy hdf2
                rcases hyA with hyA | rfl
                · rw [slotState_idx, if_neg (show ¬((i, k) : Nat × Nat) =
                    (i, j) by
                      simp only [Prod.mk.injEq, true_and]
                      exact fun hc => hjk hc.symm)]
                  exact hlow k df2 hdf2 y hyA hycp
                · have hklt : k < j := by
                    rcases Nat.lt_or_ge k j with hx1 | hx1
                    · exact hx1
                    · exfalso
                      have : j < k := Nat.lt_of_le_of_ne hx1 hjk
                      exact hjmax k this hy
                  rw [slotState_idx, if_neg (show ¬((i, k) : Nat × Nat) =
                    (i, j) by
                      simp only [Prod.mk.injEq, true_and]
                      exact fun hc => hjk hc.symm)]
                  exact hhin k hklt df2 hdf2 hycp
          have hadd := addCombos_adds st
            (listProd (slotValues st i h (slotState i h s j) j))
            (slotState i h s j) combo inst hcm hif (by rw [hac2, hacr])
          rw [hac2] at hadd
          simp only at hadd
          exact (procSlots_sound st i h rest (j+1) s2
            hdrop2).1.inst_mono inst hadd
    · rw [if_neg hpred]
      have hjne : j ≠ jstar := by
        intro hjj
        rw [← hjj] at hjh
        obtain ⟨_, hcp⟩ := hcel j h df0 hjh hdj
        obtain ⟨hp, _⟩ := compatB_shape df0 h hcp
        exact hpred hp
      refine ih (j+1) s hdrop2 hidxw hlow ?_ combo inst jstar hclen hcel
        (Nat.lt_of_le_of_ne hjle hjne) hjh hjmax hif
      intro k hk df hdf hcp
      rcases Nat.lt_or_ge k j with hkj | hkj
      · exact hhin k hkj df hdf hcp
      · exfalso
        obtain rfl : k = j := Nat.le_antisymm (Nat.lt_succ_iff.1 hk) hkj
        have hdfeq : df = df0 := by
          rw [hdj] at hdf
          exact (Option.some.inj hdf).symm
        rw [hdfeq] at hcp
        obtain ⟨hp, _⟩ := compatB_shape df0 h hcp
        exact hpred hp

theorem procStreams_complete (h : GAtom) (hA : List GAtom) :
    ∀ (sts : List Strm) (i : Nat) (s : EState),
      s.streams.drop i = sts →
      WFstreams s.streams → WFatom s.streams h → WFidx s →
      (∀ (i2 k : Nat) st2 df, s.streams[i2]? = some st2 →
        st2.domain[k]? = some df → ∀ x ∈ hA, compatB df x = true →
          x ∈ s.atoms_from_domain (i2, k)) →
      ∀ (i2 : Nat) (st : Strm) (combo : List GAtom) (inst : Inst)
        (jstar : Nat),
        i ≤ i2 → s.streams[i2]? = some st →
        combo.length = st.domain.length →
        (∀ (k : Nat) x df, combo[k]? = some x → st.domain[k]? = some df →
          (x ∈ hA ∨ x = h) ∧ compatB df x = true) →
        combo[jstar]? = some h →
        (∀ (k : Nat), jstar < k → combo[k]? ≠ some h) →
        instFrom st combo = some inst →
        inst ∈ (procStreams h s sts i).1.stream_instances := by
  intro sts
  induction sts with
  | nil =>
    intro i s hdrop _ _ _ _ i2 st combo inst jstar hile hst _ _ _ _ _
    exfalso
    have hle : s.streams.length ≤ i := by
      rw [← List.drop_eq_nil_iff]
      exact hdrop
    obtain ⟨hlt, _⟩ := List.getElem?_eq_some.1 hst
    exact Nat.not_lt.2 (Nat.le_trans hle hile) hlt
  | cons st0 rest ih =>
    intro i s hdrop hwfs hwfa hwidx hlowA i2 st combo inst jstar hile hst
      hclen hcel hjh hjmax hif
    obtain ⟨hsi, hdrop2⟩ := drop_eq_cons_getElem? hdrop
    rw [procStreams]
    have hstmem : st0 ∈ s.streams := List.getElem?_mem hsi
    have hps := procSlots_noraise st0 i h (hwfs st0 hstmem)
      (fun df hdf hp => hwfa st0 hstmem df hdf hp) st0.domain 0 s rfl
      (fun k df hdf x hx => hwidx i k st0 df hsi hdf x hx)
    obtain ⟨hS, _, _, hIdx, _⟩ := procSlots_sound st0 i h st0.domain 0 s rfl
    have hwidx2 := procSlots_WFidx st0 i h s hsi hwidx
    rcases Nat.eq_or_lt_of_le hile with hieq | hilt
    · obtain rfl : st0 = st := by
        rw [← hieq] at hst
        rw [hsi] at hst
        exact Option.some.inj hst
      have hcompl := procSlots_complete st0 i h hA (hwfs st0 hstmem)
        (fun df hdf hp => hwfa st0 hstmem df hdf hp) st0.domain 0 s rfl
        (fun k df hdf x hx => hwidx i k st0 df hsi hdf x hx)
        (fun k df hdf x hxA hcp => hlowA i k st0 df hsi hdf x hxA hcp)
        (fun k hk => absurd hk (Nat.not_lt_zero k))
        combo inst jstar hclen hcel (Nat.zero_le jstar) hjh hjmax hif
      rcases hps2 : procSlots st0 i h s st0.domain 0 with ⟨s2, ores⟩
      rw [hps2] at hps hS hIdx hwidx2 hcompl
      simp only at hps hcompl hwidx2
      rw [hps]
      simp only []
      rw [hps] at hS hIdx
      obtain ⟨gS, _, _, _, _⟩ := procStreams_sound h rest (i+1) s2
        (by rw [hS.streams_eq]; exact hdrop2)
      exact gS.inst_mono inst hcompl
    · rcases hps2 : procSlots st0 i h s st0.domain 0 with ⟨s2, ores⟩
      rw [hps2] at hps hS hIdx hwidx2
      simp only at hps hwidx2
      rw [hps]
      simp only []
      rw [hps] at hS hIdx
      refine ih (i+1) s2 (by rw [hS.streams_eq]; exact hdrop2)
        (by rw [hS.streams_eq]; exact hwfs)
        (by rw [hS.streams_eq]; exact hwfa) hwidx2 ?_
        i2 st combo inst jstar hilt (by rw [hS.streams_eq]; exact hst)
        hclen hcel hjh hjmax hif
      intro i3 k st2 df hst2 hdf x hxA hcp
      rw [hS.streams_eq] at hst2
      rcases hIdx i3 k with h1 | ⟨_, _, _, _, _, happ⟩
      · rw [h1]
        exact hlowA i3 k st2 df hst2 hdf x hxA hcp
      · rw [happ]
        exact List.mem_append.2 (Or.inl (hlowA i3 k st2 df hst2 hdf x hxA hcp))

theorem Derivable_congr (streams : List Strm) {A B : List GAtom}
    (hab : ∀ y, y ∈ A ↔ y ∈ B) (inst : Inst) :
    Derivable streams A inst ↔ Derivable streams B inst :=
  ⟨Derivable_mono streams (fun y hy => (hab y).1 hy) inst,
   Derivable_mono streams (fun y hy => (hab y).2 hy) inst⟩

theorem Derivable_nil (streams : List Strm) (inst : Inst)
    (h : Derivable streams [] inst) : ZeroInst streams inst := by
  obtain ⟨st, combo, hst, hlen, hel, hif⟩ := h
  have hcn : combo = [] := by
    cases hc : combo with
    | nil => rfl
    | cons c cs =>
      exfalso
      have h0 : combo[0]? = some c := by
        rw [hc]
        simp
      have hd0 : 0 < st.domain.length := by
        rw [← hlen, hc]
        exact Nat.succ_pos cs.length
      have hdf : st.domain[0]? = some st.domain[0] :=
        List.getElem?_eq_getElem hd0
      obtain ⟨hmem, _⟩ := hel 0 c st.domain[0] h0 hdf
      exact absurd hmem (List.not_mem_nil c)
  rw [hcn] at hlen hif
  have hdn : st.domain = [] := by
    rw [← List.length_eq_zero]
    exact hlen.symm
  rw [instFrom, hdn] at hif
  have hgm : get_mapping [] ([] : List GAtom) = MRes.ok [] := rfl
  rw [hgm] at hif
  simp only at hif
  cases hin : st.inputs with
  | nil =>
    rw [hin] at hif
    simp only [lookupInputs, Option.map_some] at hif
    exact ⟨st, hst, hin, (Option.some.inj hif).symm⟩
  | cons p ps =>
    exfalso
    rw [hin] at hif
    simp only [lookupInputs, lookupM] at hif
    exact Option.noConfusion hif

theorem EngineInv_congr (streams : List Strm) (s : EState)
    {A B : List GAtom} (hab : ∀ y, y ∈ A ↔ y ∈ B)
    (hinv : EngineInv streams s A) : EngineInv streams s B := by
  refine ⟨hinv.streams_eq, ?_, ?_, ?_, hinv.queue_char⟩
  · intro h
    rw [hinv.atoms_char h]
    exact hab h
  · intro i j st df hst hdf x
    rw [hinv.idx_char i j st df hst hdf x, hab x]
  · intro inst
    rw [hinv.inst_char inst, Derivable_congr streams hab inst]

theorem initZero_inv (streams : List Strm) :
    EngineInv streams (initZero streams) [] := by
  obtain ⟨z1, z2, z3, z4, z5, z6, z7⟩ := initZero_spec streams
  refine ⟨z1, ?_, ?_, ?_, fun inst => z5 inst⟩
  · intro h
    rw [z2]
  · intro i j st df _ _ x
    rw [z3]
    simp only [List.not_mem_nil, false_and, iff_false]
  · intro inst
    rw [z4 inst]
    constructor
    · intro hz
      exact Or.inl hz
    · rintro (hz | hd)
      · exact hz
      · exact Derivable_nil streams inst hd

theorem add_atom_inv (streams : List Strm) (A : List GAtom) (s : EState)
    (hinv : EngineInv streams s A) (hwfs : WFstreams streams) (a : GAtom)
    (hwfa : WFatom streams a) :
    EngineInv streams (add_atom s (Input.atom a)).1 (A ++ [a]) ∧
    (add_atom s (Input.atom a)).2 ≠ none := by
  by_cases hmem : a ∈ s.atoms
  · rw [add_atom, if_pos hmem]
    have haA : a ∈ A := (hinv.atoms_char a).1 hmem
    have hab : ∀ y, y ∈ A ↔ y ∈ A ++ [a] := by
      intro y
      constructor
      · intro hy
        exact List.mem_append.2 (Or.inl hy)
      · intro hy
        rcases List.mem_append.1 hy with hy1 | hy1
        · exact hy1
        · rw [List.mem_singleton] at hy1
          rw [hy1]
          exact haA
    exact ⟨EngineInv_congr streams s hab hinv, by simp⟩
  · rw [add_atom, if_neg hmem]
    set s1 : EState := { s with atoms := s.atoms ++ [a] } with hs1
    have hstr1 : s1.streams = streams := hinv.streams_eq
    have hwidx1 : WFidx s1 := by
      intro i j st df hst hdf x hx
      rw [hstr1] at hst
      have hx2 : x ∈ s.atoms_from_domain (i, j) := hx
      obtain ⟨_, hcp⟩ := (hinv.idx_char i j st df hst hdf x).1 hx2
      exact compatB_shape df x hcp
    have hnr : (procStreams a s1 s1.streams 0).2 = some () :=
      procStreams_noraise a s1.streams 0 s1 rfl
        (by rw [hstr1]; exact hwfs) (by rw [hstr1]; exact hwfa) hwidx1
    obtain ⟨hS, hQ, hN, hIdx, hInst⟩ := procStreams_sound a s1.streams 0 s1 rfl
    have happA := procStreams_appends a s1.streams 0 s1 rfl hnr
    rcases hpr : procStreams a s1 s1.streams 0 with ⟨s2, ores⟩
    rw [hpr] at hnr hS hQ hIdx hInst happA
    simp only at hnr happA
    dsimp only
    rw [hpr, hnr]
    simp only []
    refine ⟨⟨?_, ?_, ?_, ?_, ?_⟩, by simp⟩
    · rw [hS.streams_eq]
      exact hstr1
    · intro h
      rw [hS.atoms_eq]
      show h ∈ s.atoms ++ [a] ↔ h ∈ A ++ [a]
      constructor
      · intro hy
        rcases List.mem_append.1 hy with hy1 | hy1
        · exact List.mem_append.2 (Or.inl ((hinv.atoms_char h).1 hy1))
        · exact List.mem_append.2 (Or.inr hy1)
      · intro hy
        rcases List.mem_append.1 hy with hy1 | hy1
        · exact List.mem_append.2 (Or.inl ((hinv.atoms_char h).2 hy1))
        · exact List.mem_append.2 (Or.inr hy1)
    · intro i j st df hst hdf x
      constructor
      · intro hx
        rcases hIdx i j with h1 | ⟨_, st2, df2, hst2, hdf2, hcp2, happ2⟩
        · rw [h1] at hx
          have hx2 : x ∈ s.atoms_from_domain (i, j) := hx
          obtain ⟨hxA, hcp⟩ := (hinv.idx_char i j st df hst hdf x).1 hx2
          exact ⟨List.mem_append.2 (Or.inl hxA), hcp⟩
        · rw [happ2] at hx
          rw [hstr1, hst] at hst2
          have hsteq : st2 = st := (Option.some.inj hst2).symm
          rw [hsteq, hdf] at hdf2
          have hdfeq : df2 = df := (Option.some.inj hdf2).symm
          rcases List.mem_append.1 hx with hx1 | hx1
          · have hx2 : x ∈ s.atoms_from_domain (i, j) := hx1
            obtain ⟨hxA, hcp⟩ := (hinv.idx_char i j st df hst hdf x).1 hx2
            exact ⟨List.mem_append.2 (Or.inl hxA), hcp⟩
          · rw [List.mem_singleton] at hx1
            rw [hx1]
            rw [hdfeq] at hcp2
            exact ⟨List.mem_append.2 (Or.inr (List.mem_singleton.2 rfl)),
              hcp2⟩
      · rintro ⟨hxA, hcp⟩
        rcases List.mem_append.1 hxA with hx1 | hx1
        · have hxs : x ∈ s1.atoms_from_domain (i, j) :=
            (hinv.idx_char i j st df hst hdf x).2 ⟨hx1, hcp⟩
          rcases hIdx i j with h1 | ⟨_, _, _, _, _, _, happ2⟩
          · rw [h1]
            exact hxs
          · rw [happ2]
            exact List.mem_append.2 (Or.inl hxs)
        · rw [List.mem_singleton] at hx1
          rw [hx1]
          exact happA i st df j (Nat.zero_le i)
            (by rw [hstr1]; exact hst) hdf (by rw [← hx1]; exact hcp)
    · intro inst
      constructor
      · intro hins
        rcases hInst inst hins with h1 | ⟨i2, st, combo, hst, hlen, hel, hif⟩
        · have h2 : inst ∈ s.stream_instances := h1
          rcases (hinv.inst_char inst).1 h2 with hz | hd
          · exact Or.inl hz
          · exact Or.inr (Derivable_mono streams
              (fun y hy => List.mem_append.2 (Or.inl hy)) inst hd)
        · refine Or.inr ⟨st, combo, ?_, hlen, ?_, hif⟩
          · rw [hstr1] at hst
            exact List.getElem?_mem hst
          · intro k x df hx hdf
            rw [hstr1] at hst
            rcases hel k x df hx hdf with hy1 | ⟨hy1, hcp1⟩
            · have hy2 : x ∈ s.atoms_from_domain (i2, k) := hy1
              obtain ⟨hxA, hcp⟩ := (hinv.idx_char i2 k st df hst hdf x).1 hy2
              exact ⟨List.mem_append.2 (Or.inl hxA), hcp⟩
            · rw [hy1]
              rw [hy1] at hcp1
              exact ⟨List.mem_append.2 (Or.inr (List.mem_singleton.2 rfl)),
                hcp1⟩
      · rintro (hz | hd)
        · have h2 : inst ∈ s.stream_instances :=
            (hinv.inst_char inst).2 (Or.inl hz)
          exact hS.inst_mono inst h2
        · obtain ⟨st, combo, hstm, hlen, hel, hif⟩ := hd
          by_cases hha : ∃ k, k < combo.length ∧ combo[k]? = some a
          · obtain ⟨k0, hk0lt, hk0⟩ := hha
            set jstar := Nat.findGreatest (fun k => combo[k]? = some a)
              combo.length with hjdef
            have hPj : combo[jstar]? = some a :=
              Nat.findGreatest_spec (P := fun k => combo[k]? = some a)
                (Nat.le_of_lt hk0lt) hk0
            have hmax : ∀ k, jstar < k → combo[k]? ≠ some a := by
              intro k hk hck
              by_cases hkle : k ≤ combo.length
              · exact Nat.findGreatest_is_greatest
                  (P := fun k => combo[k]? = some a) hk hkle hck
              · have hnone : combo[k]? = none :=
                  List.getElem?_eq_none (Nat.le_of_lt (Nat.lt_of_not_le hkle))
                rw [hnone] at hck
                exact Option.noConfusion hck
            obtain ⟨i2, hst2⟩ := List.mem_iff_getElem?.1 hstm
            have hel2 : ∀ (k : Nat) x df, combo[k]? = some x →
                st.domain[k]? = some df →
                (x ∈ A ∨ x = a) ∧ compatB df x = true := by
              intro k x df hx hdf
              obtain ⟨hxA, hcp⟩ := hel k x df hx hdf
              rcases List.mem_append.1 hxA with hx1 | hx1
              · exact ⟨Or.inl hx1, hcp⟩
              · exact ⟨Or.inr (List.mem_singleton.1 hx1), hcp⟩
            have hlowA : ∀ (i3 k : Nat) st2 df,
                s1.streams[i3]? = some st2 → st2.domain[k]? = some df →
                ∀ x ∈ A, compatB df x = true →
                  x ∈ s1.atoms_from_domain (i3, k) := by
              intro i3 k st2 df hst3 hdf x hxA hcp
              rw [hstr1] at hst3
              exact (hinv.idx_char i3 k st2 df hst3 hdf x).2 ⟨hxA, hcp⟩
            have hcompl := procStreams_complete a A s1.streams 0 s1 rfl
              (by rw [hstr1]; exact hwfs) (by rw [hstr1]; exact hwfa)
              hwidx1 hlowA i2 st combo inst jstar (Nat.zero_le i2)
              (by rw [hstr1]; exact hst2) hlen hel2 hPj hmax hif
            rw [hpr] at hcompl
            exact hcompl
          · have hd2 : Derivable streams A inst := by
              refine ⟨st, combo, hstm, hlen, ?_, hif⟩
              intro k x df hx hdf
              obtain ⟨hxA, hcp⟩ := hel k x df hx hdf
              rcases List.mem_append.1 hxA with hx1 | hx1
              · exact ⟨hx1, hcp⟩
              · exfalso
                rw [List.mem_singleton] at hx1
                refine hha ⟨k, ?_, ?_⟩
                · exact (List.getElem?_eq_some.1 hx).1
                · rw [← hx1]
                  exact hx
            have h2 : inst ∈ s.stream_instances :=
              (hinv.inst_char inst).2 (Or.inr hd2)
            exact hS.inst_mono inst h2
    · intro inst
      exact hQ (fun x => hinv.queue_char x) inst

theorem runAtoms_inv (streams : List Strm) (hwfs : WFstreams streams) :
    ∀ (l : List GAtom) (s : EState) (A : List GAtom),
      EngineInv streams s A → (∀ a ∈ l, WFatom streams a) →
      EngineInv streams (runAtoms s (l.map Input.atom)).1 (A ++ l) := by
  intro l
  induction l with
  | nil =>
    intro s A hinv _
    rw [List.append_nil]
    exact hinv
  | cons a rest ih =>
    intro s A hinv hwfa
    obtain ⟨hinv2, hne⟩ := add_atom_inv streams A s hinv hwfs a
      (hwfa a (List.mem_cons_self a rest))
    rw [List.map_cons, runAtoms]
    rcases haa : add_atom s (Input.atom a) with ⟨s2, ores⟩
    rw [haa] at hinv2 hne
    cases ores with
    | none => exact absurd rfl hne
    | some b =>
      simp only []
      have hres := ih s2 (A ++ [a]) hinv2
        (fun x hx => hwfa x (List.mem_cons_of_mem a hx))
      rw [List.append_assoc, List.singleton_append] at hres
      exact hres

theorem init_inv (streams : List Strm) (l : List GAtom)
    (hwfs : WFstreams streams) (hwfa : ∀ a ∈ l, WFatom streams a) :
    EngineInv streams (Instantiator.init (l.map Input.atom) streams).1 l := by
  have hres := runAtoms_inv streams hwfs l (initZero streams) []
    (initZero_inv streams) hwfa
  rw [List.nil_append] at hres
  exact hres

/-- C1: with well-formed declarations and well-formed ground atoms, the
instance set reached by submitting the atoms one `add_atom` call each depends
only on the *set* of atoms submitted, not on the submission order: for any
permutation of the submission list, the final instance sets — and the sets of
instances ever enqueued — coincide. -/
theorem claim_C1_order_independence (streams : List Strm)
    (l1 l2 : List GAtom) (hwfs : WFstreams streams)
    (hwfa : ∀ a ∈ l1, WFatom streams a) (hperm : l1.Perm l2) :
    ∀ inst : Inst,
      (inst ∈ (Instantiator.init (l1.map Input.atom)
          streams).1.stream_instances ↔
        inst ∈ (Instantiator.init (l2.map Input.atom)
          streams).1.stream_instances) ∧
      (inst ∈ (Instantiator.init (l1.map Input.atom)
          streams).1.stream_queue ↔
        inst ∈ (Instantiator.init (l2.map Input.atom)
          streams).1.stream_queue) := by
  intro inst
  have hinv1 := init_inv streams l1 hwfs hwfa
  have hinv2 := init_inv streams l2 hwfs
    (fun a ha => hwfa a (hperm.mem_iff.2 ha))
  have hii : inst ∈ (Instantiator.init (l1.map Input.atom)
      streams).1.stream_instances ↔
      inst ∈ (Instantiator.init (l2.map Input.atom)
        streams).1.stream_instances := by
    rw [hinv1.inst_char inst, hinv2.inst_char inst]
    rw [Derivable_congr streams (fun y => hperm.mem_iff) inst]
  refine ⟨hii, ?_⟩
  rw [hinv1.queue_char inst, hinv2.queue_char inst]
  exact hii

theorem claim_C1_witness :
    WFstreams [⟨5, ["x"], [⟨"p", [Arg.param "x"]⟩]⟩] ∧
    (∀ a ∈ [GAtom.mk "p" [⟨0⟩], GAtom.mk "p" [⟨1⟩]],
      WFatom [⟨5, ["x"], [⟨"p", [Arg.param "x"]⟩]⟩] a) ∧
    [GAtom.mk "p" [⟨0⟩], GAtom.mk "p" [⟨1⟩]].Perm
      [GAtom.mk "p" [⟨1⟩], GAtom.mk "p" [⟨0⟩]] ∧
    (((5, [Obj.mk 0]) : Inst) ∈ (Instantiator.init
        ([GAtom.mk "p" [⟨0⟩], GAtom.mk "p" [⟨1⟩]].map Input.atom)
        [⟨5, ["x"], [⟨"p", [Arg.param "x"]⟩]⟩]).1.stream_instances ↔
      ((5, [Obj.mk 0]) : Inst) ∈ (Instantiator.init
        ([GAtom.mk "p" [⟨1⟩], GAtom.mk "p" [⟨0⟩]].map Input.atom)
        [⟨5, ["x"], [⟨"p", [Arg.param "x"]⟩]⟩]).1.stream_instances) :=
  ⟨by unfold WFstreams; decide,
   by intro a ha; unfold WFatom; revert a ha; decide,
   List.Perm.swap _ _ _,
   (claim_C1_order_independence
     [⟨5, ["x"], [⟨"p", [Arg.param "x"]⟩]⟩]
     [GAtom.mk "p" [⟨0⟩], GAtom.mk "p" [⟨1⟩]]
     [GAtom.mk "p" [⟨1⟩], GAtom.mk "p" [⟨0⟩]]
     (by unfold WFstreams; decide)
     (by intro a ha; unfold WFatom; revert a ha; decide)
     (List.Perm.swap _ _ _) ((5, [Obj.mk 0]) : Inst)).1⟩
